import Mathlib

/-
  Verification of the BoxFramework structured-grid core.

  Shallow embedding of the geometry and indexing substrate of the
  StructuredGridCalc BoxFramework repository: the integer coordinate
  (IntVect), the axis-aligned region (Box), the device-side array view
  (CudaFab), the host array (BaseFab) and the sliding-window slab cache
  (SlabFab).  The build-time dimensionality g_SpaceDim is fixed at 3,
  matching the three-term D_TERM/D_DECL unrolling used throughout the
  source; machine ints are modelled as unbounded ℤ and C++ `/` and `%`
  (truncation toward zero) as Int.tdiv / Int.tmod.
-/

namespace BoxFramework

/-- Build-time spatial dimensionality (Parameters.H); the source is unrolled
for three axes via D_TERM/D_DECL/D_EXPR. -/
def g_SpaceDim : ℤ := 3

/-- IntVect: integer vector with g_SpaceDim = 3 components (IntVect.H). -/
structure IntVect where
  x : ℤ
  y : ℤ
  z : ℤ
deriving DecidableEq, Repr

namespace IntVect

/-- Componentwise addition (operator+). -/
def add (a b : IntVect) : IntVect := ⟨a.x + b.x, a.y + b.y, a.z + b.z⟩

/-- Componentwise subtraction (operator-). -/
def sub (a b : IntVect) : IntVect := ⟨a.x - b.x, a.y - b.y, a.z - b.z⟩

/-- Unary negation (operator- unary). -/
def neg (a : IntVect) : IntVect := ⟨-a.x, -a.y, -a.z⟩

/-- Componentwise comparison operator<= : true iff every component is <=. -/
def le (a b : IntVect) : Prop := a.x ≤ b.x ∧ a.y ≤ b.y ∧ a.z ≤ b.z

instance (a b : IntVect) : Decidable (le a b) := by
  unfold le
  infer_instance

/-- Product of the components (IntVect::product). -/
def product (a : IntVect) : ℤ := a.x * a.y * a.z

/-- Read component d (IntVect::operator[] with an in-range index). -/
def comp (a : IntVect) (d : Fin 3) : ℤ :=
  match d with
  | 0 => a.x
  | 1 => a.y
  | 2 => a.z

/-- Write component d (IntVect::operator[] as an lvalue, in-range index). -/
def set (a : IntVect) (d : Fin 3) (v : ℤ) : IntVect :=
  match d with
  | 0 => ⟨v, a.y, a.z⟩
  | 1 => ⟨a.x, v, a.z⟩
  | 2 => ⟨a.x, a.y, v⟩

/-- IntVect::operator[] modelled with its real domain: m_data has exactly
g_SpaceDim = 3 entries, so only indices 0, 1, 2 denote an element; any other
index is an out-of-bounds access (undefined behaviour in the source). -/
def get? (a : IntVect) (idx : ℤ) : Option ℤ :=
  if idx = 0 then some a.x
  else if idx = 1 then some a.y
  else if idx = 2 then some a.z
  else none

end IntVect

/-- Box: axis-aligned region given by inclusive lower and upper corners
(Box.H). -/
structure Box where
  lo : IntVect
  hi : IntVect
deriving DecidableEq, Repr

namespace Box

/-- Box::size = product of the extents (D_TERM unrolled). -/
def size (b : Box) : ℤ :=
  (b.hi.x - b.lo.x + 1) * (b.hi.y - b.lo.y + 1) * (b.hi.z - b.lo.z + 1)

/-- Box::dimensions = per-axis extents. -/
def dimensions (b : Box) : IntVect :=
  ⟨b.hi.x - b.lo.x + 1, b.hi.y - b.lo.y + 1, b.hi.z - b.lo.z + 1⟩

/-- Box::isEmpty: some axis has hi < lo. -/
def isEmpty (b : Box) : Prop := b.hi.x < b.lo.x ∨ b.hi.y < b.lo.y ∨ b.hi.z < b.lo.z

instance (b : Box) : Decidable (isEmpty b) := by
  unfold isEmpty
  infer_instance

/-- Box::contains(IntVect): lo <= iv and iv <= hi componentwise. -/
def contains (b : Box) (iv : IntVect) : Prop := b.lo.le iv ∧ iv.le b.hi

instance (b : Box) (iv : IntVect) : Decidable (contains b iv) := by
  unfold contains
  infer_instance

/-- Box::getStride: stride[0] = 1, stride[1] = stride[0]*extent0,
stride[2] = stride[1]*extent1. -/
def getStride (b : Box) : IntVect :=
  ⟨1, b.hi.x - b.lo.x + 1, (b.hi.x - b.lo.x + 1) * (b.hi.y - b.lo.y + 1)⟩

/-- Box::vecToLin0: zero-based linear index of a (relative) vector index;
the axis-0 coefficient is the literal a_vec[0] (stride[0] is not read). -/
def vecToLin0 (vec stride : IntVect) : ℤ :=
  vec.x + vec.y * stride.y + vec.z * stride.z

/-- Box::getOffset: pointer adjustment for a non-zero lower corner,
vecToLin0(-loVect(), stride). -/
def getOffset (b : Box) (stride : IntVect) : ℤ :=
  vecToLin0 b.lo.neg stride

/-- Box::linToVec: box-based linear index to vector index, peeling axis 2
first then axis 1 (D_INVTERM order), with C++ truncated division; the source's
running remainder (a_lin -= tmp*stride) is written out explicitly. -/
def linToVec (b : Box) (lin : ℤ) (stride : IntVect) : IntVect :=
  ⟨lin - lin.tdiv stride.z * stride.z
     - (lin - lin.tdiv stride.z * stride.z).tdiv stride.y * stride.y + b.lo.x,
   (lin - lin.tdiv stride.z * stride.z).tdiv stride.y + b.lo.y,
   lin.tdiv stride.z + b.lo.z⟩

/-- Box::shift(int, int): translate both corners along one axis. -/
def shift (b : Box) (i : ℤ) (d : Fin 3) : Box :=
  ⟨b.lo.set d (b.lo.comp d + i), b.hi.set d (b.hi.comp d + i)⟩

/-- Box::grow(int): expand both corners on all axes. -/
def grow (b : Box) (i : ℤ) : Box :=
  ⟨(b.lo.sub ⟨i, i, i⟩), (b.hi.add ⟨i, i, i⟩)⟩

/-- Debug assertion guarding Box::grow(int, int): the source checks
a_dir >= 0 && a_dir <= g_SpaceDim before accessing m_lo[a_dir]. -/
def growDirAssert (dir : ℤ) : Prop := 0 ≤ dir ∧ dir ≤ g_SpaceDim

instance (dir : ℤ) : Decidable (growDirAssert dir) := by
  unfold growDirAssert
  infer_instance

/-- Box::adjBox: region adjacent to one face (four sign cases as in the
source's if/else chain; no case applies when a_ncell = 0). -/
def adjBox (b : Box) (ncell : ℤ) (d : Fin 3) (side : ℤ) : Box :=
  if 0 < ncell ∧ 0 < side then
    let hi2 := b.hi.set d (b.hi.comp d + ncell)
    ⟨b.lo.set d (hi2.comp d - ncell + 1), hi2⟩
  else if 0 < ncell ∧ side ≤ 0 then
    let lo2 := b.lo.set d (b.lo.comp d - ncell)
    ⟨lo2, b.hi.set d (lo2.comp d + ncell - 1)⟩
  else if ncell < 0 ∧ 0 < side then
    ⟨b.lo.set d (b.hi.comp d + ncell + 1), b.hi⟩
  else if ncell < 0 ∧ side ≤ 0 then
    ⟨b.lo, b.hi.set d (b.lo.comp d - ncell - 1)⟩
  else b

end Box

/-
  Arithmetic helpers for the strided index algebra.
-/

/-- Truncated division agrees with Euclidean division on a nonnegative
dividend and positive divisor, with the usual quotient bounds. -/
theorem tdiv_nonneg_facts (n d : ℤ) (hn : 0 ≤ n) (hd : 0 < d) :
    n.tdiv d = n / d ∧ 0 ≤ n.tdiv d ∧ 0 ≤ n - n.tdiv d * d ∧ n - n.tdiv d * d < d := by
  have he : n.tdiv d = n / d := Int.tdiv_eq_ediv hn hd.le
  refine ⟨he, ?_, ?_, ?_⟩
  · exact he ▸ Int.ediv_nonneg hn hd.le
  · have h := Int.emod_nonneg n hd.ne'
    have hdef : n % d = n - d * (n / d) := Int.emod_def n d
    have hcomm : d * (n / d) = n / d * d := mul_comm d (n / d)
    rw [he]
    omega
  · have h := Int.emod_lt_of_pos n hd
    have hdef : n % d = n - d * (n / d) := Int.emod_def n d
    have hcomm : d * (n / d) = n / d * d := mul_comm d (n / d)
    rw [he]
    omega

/-- Quotient upper bound: a nonnegative n below k*d has n.tdiv d < k. -/
theorem tdiv_lt_of_lt_mul (n d k : ℤ) (hn : 0 ≤ n) (hd : 0 < d)
    (h : n < k * d) : n.tdiv d < k := by
  rw [(tdiv_nonneg_facts n d hn hd).1]
  have h1 : n / d * d ≤ n := Int.ediv_mul_le n hd.ne'
  have h2 : n / d * d < k * d := lt_of_le_of_lt h1 h
  exact lt_of_mul_lt_mul_right h2 hd.le

/-- Digit extraction: dividing a + q*d by d recovers q when 0 ≤ a < d. -/
theorem tdiv_add_mul_self (a d q : ℤ) (ha : 0 ≤ a) (had : a < d) (hq : 0 ≤ q) :
    (a + q * d).tdiv d = q := by
  have hd : 0 < d := lt_of_le_of_lt ha had
  have hnn : 0 ≤ a + q * d := by
    have : 0 ≤ q * d := mul_nonneg hq hd.le
    omega
  rw [Int.tdiv_eq_ediv hnn hd.le, Int.add_mul_ediv_right _ _ hd.ne',
    Int.ediv_eq_zero_of_lt ha had, zero_add]

/-
  C1: linearize / delinearize round trip.
-/

/-- C1: for every region with lo <= hi componentwise, delinearizing a flat
index n in [0, size) with Box::linToVec yields a coordinate contained in the
region whose re-linearization (Box::vecToLin0 of the coordinate made relative
to the low corner, i.e. accounting for the low-bound offset) is n again; and
conversely every coordinate contained in the region round-trips exactly
through vecToLin0 followed by linToVec. -/
theorem c1_linearize_delinearize_roundtrip (b : Box) (hwf : b.lo.le b.hi) :
    (∀ n : ℤ, 0 ≤ n → n < b.size →
      b.contains (b.linToVec n b.getStride) ∧
      Box.vecToLin0 ((b.linToVec n b.getStride).sub b.lo) b.getStride = n) ∧
    (∀ p : IntVect, b.contains p →
      b.linToVec (Box.vecToLin0 (p.sub b.lo) b.getStride) b.getStride = p) := by
  obtain ⟨hx, hy, hz⟩ := hwf
  set e0 := b.hi.x - b.lo.x + 1 with he0
  set e1 := b.hi.y - b.lo.y + 1 with he1
  set e2 := b.hi.z - b.lo.z + 1 with he2
  have he0p : 0 < e0 := by omega
  have he1p : 0 < e1 := by omega
  have he2p : 0 < e2 := by omega
  have hsz : b.size = e0 * e1 * e2 := rfl
  have hst : b.getStride = ⟨1, e0, e0 * e1⟩ := rfl
  constructor
  · intro n hn hlt
    have h01 : 0 < e0 * e1 := mul_pos he0p he1p
    obtain ⟨_, hq2n, hr2n, hr2lt⟩ := tdiv_nonneg_facts n (e0 * e1) hn h01
    have hq2lt : n.tdiv (e0 * e1) < e2 := by
      refine tdiv_lt_of_lt_mul n (e0 * e1) e2 hn h01 ?_
      rw [hsz] at hlt
      nlinarith [hlt]
    set q2 := n.tdiv (e0 * e1) with hq2def
    set r2 := n - q2 * (e0 * e1) with hr2def
    obtain ⟨_, hq1n, hr1n, hr1lt⟩ := tdiv_nonneg_facts r2 e0 hr2n he0p
    have hq1lt : r2.tdiv e0 < e1 := by
      refine tdiv_lt_of_lt_mul r2 e0 e1 hr2n he0p ?_
      nlinarith [hr2lt]
    set q1 := r2.tdiv e0 with hq1def
    set r1 := r2 - q1 * e0 with hr1def
    have hvec : b.linToVec n b.getStride = ⟨r1 + b.lo.x, q1 + b.lo.y, q2 + b.lo.z⟩ := by
      rw [hst]
      rfl
    constructor
    · rw [hvec]
      refine ⟨⟨?_, ?_, ?_⟩, ?_, ?_, ?_⟩ <;> dsimp only <;> omega
    · rw [hvec]
      have hexp : Box.vecToLin0
          ((IntVect.mk (r1 + b.lo.x) (q1 + b.lo.y) (q2 + b.lo.z)).sub b.lo)
          (IntVect.mk 1 e0 (e0 * e1)) = r1 + q1 * e0 + q2 * (e0 * e1) := by
        simp only [IntVect.sub, Box.vecToLin0]
        ring
      rw [hst, hexp]
      omega
  · intro p hp
    obtain ⟨px, py, pz⟩ := p
    obtain ⟨⟨hlx, hly, hlz⟩, ⟨hhx, hhy, hhz⟩⟩ := hp
    dsimp only at hlx hly hlz hhx hhy hhz
    set v0 := px - b.lo.x with hv0
    set v1 := py - b.lo.y with hv1
    set v2 := pz - b.lo.z with hv2
    have hlin : Box.vecToLin0 ((IntVect.mk px py pz).sub b.lo) b.getStride =
        v0 + v1 * e0 + v2 * (e0 * e1) := by
      simp only [IntVect.sub, Box.vecToLin0, hst]
      try rw [hv0, hv1, hv2]
      try ring
    have hinner : 0 ≤ v0 + v1 * e0 := by
      have : 0 ≤ v1 * e0 := mul_nonneg (by omega) he0p.le
      omega
    have hinnerlt : v0 + v1 * e0 < e0 * e1 := by nlinarith
    have hq2 : (v0 + v1 * e0 + v2 * (e0 * e1)).tdiv (e0 * e1) = v2 :=
      tdiv_add_mul_self (v0 + v1 * e0) (e0 * e1) v2 hinner hinnerlt (by omega)
    have hq1 : (v0 + v1 * e0).tdiv e0 = v1 :=
      tdiv_add_mul_self v0 e0 v1 (by omega) (by omega) (by omega)
    rw [hlin, hst]
    simp only [Box.linToVec]
    rw [hq2]
    rw [show v0 + v1 * e0 + v2 * (e0 * e1) - v2 * (e0 * e1) = v0 + v1 * e0 by ring]
    rw [hq1]
    simp only [IntVect.mk.injEq]
    refine ⟨by omega, by omega, by omega⟩

/-- Witness for C1 at a concrete region with nonzero low corner. -/
theorem c1_witness :
    (IntVect.le ⟨1, 2, 3⟩ ⟨4, 3, 5⟩) ∧
    ((∀ n : ℤ, 0 ≤ n → n < (Box.mk ⟨1, 2, 3⟩ ⟨4, 3, 5⟩).size →
      (Box.mk ⟨1, 2, 3⟩ ⟨4, 3, 5⟩).contains
        ((Box.mk ⟨1, 2, 3⟩ ⟨4, 3, 5⟩).linToVec n (Box.mk ⟨1, 2, 3⟩ ⟨4, 3, 5⟩).getStride) ∧
      Box.vecToLin0
        (((Box.mk ⟨1, 2, 3⟩ ⟨4, 3, 5⟩).linToVec n
            (Box.mk ⟨1, 2, 3⟩ ⟨4, 3, 5⟩).getStride).sub ⟨1, 2, 3⟩)
        (Box.mk ⟨1, 2, 3⟩ ⟨4, 3, 5⟩).getStride = n) ∧
    (∀ p : IntVect, (Box.mk ⟨1, 2, 3⟩ ⟨4, 3, 5⟩).contains p →
      (Box.mk ⟨1, 2, 3⟩ ⟨4, 3, 5⟩).linToVec
        (Box.vecToLin0 (p.sub ⟨1, 2, 3⟩) (Box.mk ⟨1, 2, 3⟩ ⟨4, 3, 5⟩).getStride)
        (Box.mk ⟨1, 2, 3⟩ ⟨4, 3, 5⟩).getStride = p)) :=
  ⟨by decide, c1_linearize_delinearize_roundtrip (Box.mk ⟨1, 2, 3⟩ ⟨4, 3, 5⟩) (by decide)⟩

/-
  Component access helpers used by the per-axis proofs.
-/

/-- Reading back the component just set. -/
theorem IntVect.comp_set_self (a : IntVect) (d : Fin 3) (v : ℤ) :
    (a.set d v).comp d = v := by
  fin_cases d <;> rfl

/-- Setting one component leaves the others unchanged. -/
theorem IntVect.comp_set_other (a : IntVect) (d e : Fin 3) (v : ℤ) (h : e ≠ d) :
    (a.set d v).comp e = a.comp e := by
  fin_cases d <;> fin_cases e <;> first | rfl | exact absurd rfl h

/-
  CudaFab: the device-side view (CudaFab.H).
-/

/-- CudaFab: non-owning device-side array view: box, strides, component
count, box size, and the pre-offset data pointer modelled as an integer
address into an unbounded flat address space. -/
structure CudaFab where
  box : Box
  stride : IntVect
  ncomp : ℤ
  size : ℤ
  data : ℤ
deriving DecidableEq, Repr

namespace CudaFab

/-- CudaFab::index: strided linear index of an absolute coordinate.  The
axis-0 coefficient is the literal a_iv[0]; the low corner is not subtracted
because the data pointer is pre-offset. -/
def index (f : CudaFab) (iv : IntVect) : ℤ :=
  iv.x + iv.y * f.stride.y + iv.z * f.stride.z

/-- Flat address read by CudaFab::operator(): m_data[a_icomp*m_size +
index(a_iv)]. -/
def addr (f : CudaFab) (iv : IntVect) (icomp : ℤ) : ℤ :=
  f.data + icomp * f.size + f.index iv

/-- CudaFab::shift: subtract the old offset from the data pointer, shift the
box with Box::shift, add the new offset; nothing else changes. -/
def shift (f : CudaFab) (i : ℤ) (d : Fin 3) : CudaFab :=
  { box := f.box.shift i d
    stride := f.stride
    ncomp := f.ncomp
    size := f.size
    data := f.data - f.box.getOffset f.stride + (f.box.shift i d).getOffset f.stride }

/-- CudaFab::sizeBytes: ((size_t)size())*sizeof(T) with size() =
m_ncomp*m_size; the element width sizeof(T) is passed explicitly. -/
def sizeBytes (f : CudaFab) (sizeofT : ℤ) : ℤ :=
  f.ncomp * f.size * sizeofT

end CudaFab

/-- Translation of a point by n cells along one axis (p + n*e_axis). -/
def IntVect.translate (p : IntVect) (n : ℤ) (d : Fin 3) : IntVect :=
  p.set d (p.comp d + n)

/-- C5: CudaFab::shift translates the view without moving data: the region is
updated via Box::shift, the strides, component count and size fields are
unchanged, and for every point p contained in the pre-shift region and every
component, the shifted view indexed at p + n*e_axis addresses exactly the
memory element the original view addressed at p. -/
theorem c5_cudafab_shift_zero_copy (f : CudaFab) (n : ℤ) (d : Fin 3) :
    (f.shift n d).box = f.box.shift n d ∧
    (f.shift n d).stride = f.stride ∧
    (f.shift n d).ncomp = f.ncomp ∧
    (f.shift n d).size = f.size ∧
    ∀ p : IntVect, f.box.contains p → ∀ icomp : ℤ,
      (f.shift n d).addr (p.translate n d) icomp = f.addr p icomp := by
  refine ⟨rfl, rfl, rfl, rfl, ?_⟩
  intro p _ icomp
  fin_cases d <;>
    simp only [CudaFab.shift, CudaFab.addr, CudaFab.index, IntVect.translate, Box.shift,
      Box.getOffset, Box.vecToLin0, IntVect.neg, IntVect.set, IntVect.comp] <;>
    ring

/-- Concrete view used to witness C5. -/
def c5Fab : CudaFab :=
  ⟨Box.mk ⟨0, 0, 0⟩ ⟨2, 2, 2⟩, ⟨1, 3, 9⟩, 1, 27, 100⟩

/-- Witness for C5: a concrete contained point, shift by 2 along axis 0. -/
theorem c5_witness :
    c5Fab.box.contains ⟨1, 2, 1⟩ ∧
    (c5Fab.shift 2 0).addr (IntVect.translate ⟨1, 2, 1⟩ 2 0) 0 = c5Fab.addr ⟨1, 2, 1⟩ 0 :=
  ⟨by decide, (c5_cudafab_shift_zero_copy c5Fab 2 0).2.2.2.2 ⟨1, 2, 1⟩ (by decide) 0⟩

/-- C6: Box::adjBox with nonzero n leaves every axis other than d unchanged
and produces along d the face-adjacent interval dictated by the signs of n
and side ([hi+1,hi+n], [lo-n,lo-1], [hi+n+1,hi] or [lo,lo-n-1]); the result
is |n| cells thick along d in every case. -/
theorem c6_adjBox_faces (b : Box) (n : ℤ) (d : Fin 3) (side : ℤ)
    (_hne : ¬ b.isEmpty) (hn : n ≠ 0) :
    (∀ e : Fin 3, e ≠ d →
      (b.adjBox n d side).lo.comp e = b.lo.comp e ∧
      (b.adjBox n d side).hi.comp e = b.hi.comp e) ∧
    (0 < n → 0 < side →
      (b.adjBox n d side).lo.comp d = b.hi.comp d + 1 ∧
      (b.adjBox n d side).hi.comp d = b.hi.comp d + n) ∧
    (0 < n → side ≤ 0 →
      (b.adjBox n d side).lo.comp d = b.lo.comp d - n ∧
      (b.adjBox n d side).hi.comp d = b.lo.comp d - 1) ∧
    (n < 0 → 0 < side →
      (b.adjBox n d side).lo.comp d = b.hi.comp d + n + 1 ∧
      (b.adjBox n d side).hi.comp d = b.hi.comp d) ∧
    (n < 0 → side ≤ 0 →
      (b.adjBox n d side).lo.comp d = b.lo.comp d ∧
      (b.adjBox n d side).hi.comp d = b.lo.comp d - n - 1) ∧
    (b.adjBox n d side).hi.comp d - (b.adjBox n d side).lo.comp d + 1 = |n| := by
  rcases lt_trichotomy n 0 with hneg | hzero | hpos
  · rcases le_or_lt side 0 with hs | hs
    · have hA : b.adjBox n d side = ⟨b.lo, b.hi.set d (b.lo.comp d - n - 1)⟩ := by
        simp only [Box.adjBox]
        rw [if_neg (by omega), if_neg (by omega), if_neg (by omega), if_pos ⟨hneg, hs⟩]
      rw [hA, abs_of_neg hneg]
      dsimp only
      have e1 : (b.hi.set d (b.lo.comp d - n - 1)).comp d = b.lo.comp d - n - 1 :=
        IntVect.comp_set_self _ _ _
      refine ⟨?_, ?_, ?_, ?_, ?_, by omega⟩
      · intro e he
        exact ⟨rfl, IntVect.comp_set_other _ _ _ _ he⟩
      all_goals intro h1 h2
      all_goals constructor
      all_goals omega
    · have hA : b.adjBox n d side = ⟨b.lo.set d (b.hi.comp d + n + 1), b.hi⟩ := by
        simp only [Box.adjBox]
        rw [if_neg (by omega), if_neg (by omega), if_pos ⟨hneg, hs⟩]
      rw [hA, abs_of_neg hneg]
      dsimp only
      have e1 : (b.lo.set d (b.hi.comp d + n + 1)).comp d = b.hi.comp d + n + 1 :=
        IntVect.comp_set_self _ _ _
      refine ⟨?_, ?_, ?_, ?_, ?_, by omega⟩
      · intro e he
        exact ⟨IntVect.comp_set_other _ _ _ _ he, rfl⟩
      all_goals intro h1 h2
      all_goals constructor
      all_goals omega
  · exact absurd hzero hn
  · rcases le_or_lt side 0 with hs | hs
    · have hA : b.adjBox n d side =
          ⟨b.lo.set d (b.lo.comp d - n),
           b.hi.set d ((b.lo.set d (b.lo.comp d - n)).comp d + n - 1)⟩ := by
        simp only [Box.adjBox]
        rw [if_neg (by omega), if_pos ⟨hpos, hs⟩]
      rw [hA, abs_of_pos hpos]
      dsimp only
      have e1 : (b.lo.set d (b.lo.comp d - n)).comp d = b.lo.comp d - n :=
        IntVect.comp_set_self _ _ _
      have e2 : (b.hi.set d ((b.lo.set d (b.lo.comp d - n)).comp d + n - 1)).comp d =
          (b.lo.set d (b.lo.comp d - n)).comp d + n - 1 :=
        IntVect.comp_set_self _ _ _
      refine ⟨?_, ?_, ?_, ?_, ?_, by omega⟩
      · intro e he
        exact ⟨IntVect.comp_set_other _ _ _ _ he, IntVect.comp_set_other _ _ _ _ he⟩
      all_goals intro h1 h2
      all_goals constructor
      all_goals omega
    · have hA : b.adjBox n d side =
          ⟨b.lo.set d ((b.hi.set d (b.hi.comp d + n)).comp d - n + 1),
           b.hi.set d (b.hi.comp d + n)⟩ := by
        simp only [Box.adjBox]
        rw [if_pos ⟨hpos, hs⟩]
      rw [hA, abs_of_pos hpos]
      dsimp only
      have e1 : (b.hi.set d (b.hi.comp d + n)).comp d = b.hi.comp d + n :=
        IntVect.comp_set_self _ _ _
      have e2 : (b.lo.set d ((b.hi.set d (b.hi.comp d + n)).comp d - n + 1)).comp d =
          (b.hi.set d (b.hi.comp d + n)).comp d - n + 1 :=
        IntVect.comp_set_self _ _ _
      refine ⟨?_, ?_, ?_, ?_, ?_, by omega⟩
      · intro e he
        exact ⟨IntVect.comp_set_other _ _ _ _ he, IntVect.comp_set_other _ _ _ _ he⟩
      all_goals intro h1 h2
      all_goals constructor
      all_goals omega

/-- Witness for C6: thickness of the 2-cell high-side adjacent box of a
concrete region along axis 0. -/
theorem c6_witness :
    ¬ (Box.mk ⟨0, 0, 0⟩ ⟨2, 2, 2⟩).isEmpty ∧ (2 : ℤ) ≠ 0 ∧
    ((Box.mk ⟨0, 0, 0⟩ ⟨2, 2, 2⟩).adjBox 2 0 1).hi.comp 0 -
      ((Box.mk ⟨0, 0, 0⟩ ⟨2, 2, 2⟩).adjBox 2 0 1).lo.comp 0 + 1 = |(2 : ℤ)| :=
  ⟨by decide, by decide,
    (c6_adjBox_faces (Box.mk ⟨0, 0, 0⟩ ⟨2, 2, 2⟩) 2 0 1 (by decide) (by decide)).2.2.2.2.2⟩

/-
  BaseFab: the host array (BaseFab.H).
-/

/-- BaseFab: host array container.  The buffer is a total function from flat
offsets to values (element type modelled as ℤ).  The m_stride and m_size
members are those established by define/setStride; setStride's body is not
among the sources here, so the stride convention is the spec's (stride[0]=1,
stride[k]=stride[k-1]*extent(k-1), axis 0 fastest), identical to
Box::getStride of the source. -/
structure BaseFab where
  box : Box
  ncomp : ℤ
  data : ℤ → ℤ

namespace BaseFab

/-- m_stride. -/
def stride (f : BaseFab) : IntVect := f.box.getStride

/-- m_size: the size of the box (component stride). -/
def boxSize (f : BaseFab) : ℤ := f.box.size

/-- BaseFab::size(): m_ncomp * m_size. -/
def size (f : BaseFab) : ℤ := f.ncomp * f.box.size

/-- BaseFab::index: make the coordinate relative to the lower corner, then
the strided dot product (all three stride factors appear literally). -/
def index (f : BaseFab) (iv : IntVect) : ℤ :=
  (iv.sub f.box.lo).x * f.stride.x + (iv.sub f.box.lo).y * f.stride.y +
    (iv.sub f.box.lo).z * f.stride.z

/-- BaseFab::operator(): m_data[a_icomp*m_size + index(a_iv)]. -/
def at_ (f : BaseFab) (iv : IntVect) (icomp : ℤ) : ℤ :=
  f.data (icomp * f.boxSize + f.index iv)

/-- BaseFab::sizeBytes as written in the source: size() *
sizeof(typeid(T).name()).  typeid(T).name() has type const char*, so the
factor is the byte size of a pointer on the LP64 target, namely 8 — it does
not depend on T. -/
def sizeBytes (f : BaseFab) : ℤ := f.size * 8

end BaseFab

/-- Scenario A fab: 3-D region [(0,0,0),(3,3,3)], one component, buffer
filled 0..63 in axis-0-fastest order (element at flat offset a is a). -/
def scenarioFab : BaseFab :=
  ⟨Box.mk ⟨0, 0, 0⟩ ⟨3, 3, 3⟩, 1, fun a => a⟩

/-- C8: BaseFab element access at(coordinate, component) reads the buffer at
flat offset component*region.size() + index(coordinate), where index is the
axis-0-fastest strided linearization of the coordinate relative to the
region's low corner (Box::vecToLin0 with the region's strides); in the
concrete scenario A the element at ((2,1,0), 0) is 6. -/
theorem c8_basefab_at_flat_offset :
    (∀ f : BaseFab, ∀ iv : IntVect, f.box.contains iv →
      ∀ icomp : ℤ, 0 ≤ icomp → icomp < f.ncomp →
      f.at_ iv icomp =
        f.data (icomp * f.box.size + Box.vecToLin0 (iv.sub f.box.lo) f.box.getStride)) ∧
    scenarioFab.at_ ⟨2, 1, 0⟩ 0 = 6 := by
  constructor
  · intro f iv _ icomp _ _
    have hidx : f.index iv = Box.vecToLin0 (iv.sub f.box.lo) f.box.getStride := by
      simp only [BaseFab.index, BaseFab.stride, Box.vecToLin0, Box.getStride]
      ring
    simp only [BaseFab.at_, BaseFab.boxSize, hidx]
  · decide

/-- Witness for C8: the general clause applied to scenario A at a contained
coordinate and in-range component. -/
theorem c8_witness :
    scenarioFab.box.contains ⟨2, 1, 0⟩ ∧ (0 : ℤ) ≤ 0 ∧ (0 : ℤ) < scenarioFab.ncomp ∧
    scenarioFab.at_ ⟨2, 1, 0⟩ 0 =
      scenarioFab.data (0 * scenarioFab.box.size +
        Box.vecToLin0 ((IntVect.mk 2 1 0).sub scenarioFab.box.lo) scenarioFab.box.getStride) :=
  ⟨by decide, by decide, by decide,
    c8_basefab_at_flat_offset.1 scenarioFab ⟨2, 1, 0⟩ (by decide) 0 (by decide) (by decide)⟩

/-- C9: the host and device byte-size queries disagree.  BaseFab::sizeBytes
multiplies the element count by sizeof(typeid(T).name()) = sizeof(const
char*) = 8 regardless of T, while CudaFab::sizeBytes multiplies by
sizeof(T); for T = float (4 bytes) on a one-cell single-component geometry
the host query returns 8 where the device query returns the correct 4. -/
theorem c9_sizeBytes_mismatch :
    (BaseFab.mk (Box.mk ⟨0, 0, 0⟩ ⟨0, 0, 0⟩) 1 (fun _ => 0)).sizeBytes = 8 ∧
    (CudaFab.mk (Box.mk ⟨0, 0, 0⟩ ⟨0, 0, 0⟩) ⟨1, 1, 1⟩ 1 1 0).sizeBytes 4 = 4 ∧
    (BaseFab.mk (Box.mk ⟨0, 0, 0⟩ ⟨0, 0, 0⟩) 1 (fun _ => 0)).sizeBytes ≠
      (CudaFab.mk (Box.mk ⟨0, 0, 0⟩ ⟨0, 0, 0⟩) ⟨1, 1, 1⟩ 1 1 0).sizeBytes 4 := by
  refine ⟨rfl, rfl, by decide⟩

/-
  SlabFab permutation table (CudaFab.H, SlabFab::define / SlabFab::shift).
-/

/-- Normalized shift operand of SlabFab::shift(int): the update
a_i += ((abs(a_i) - 1)/nSlab + 1)*nSlab with C++ truncated division, applied
to the original argument. -/
def normShift (n m : ℤ) : ℤ := n + ((|n| - 1).tdiv m + 1) * m

/-- SlabFab::shift(int) acting on the permutation table: a zero shift
returns early; otherwise every lane i with 0 <= i < numSlab replaces its own
entry by (pTable[i] + normalized shift) % numSlab (C++ truncated remainder);
entries outside the first numSlab are not touched. -/
def shiftTable (m n : ℤ) (p : ℤ → ℤ) : ℤ → ℤ :=
  if n = 0 then p
  else fun i => if 0 ≤ i ∧ i < m then (p i + normShift n m).tmod m else p i

/-- The identity permutation installed by SlabFab::define (the source sets
pTable[i] = i for every slot of the table). -/
def defineTable : ℤ → ℤ := fun i => i

/-- Permutation table after define() followed by a sequence of shift calls. -/
def applyShifts (m : ℤ) (l : List ℤ) : ℤ → ℤ :=
  l.foldl (fun p n => shiftTable m n p) defineTable

/-- The normalized operand is non-negative (for a nonzero argument it is
n + ceil(|n|/m)*m >= n + |n|; the early-returned n = 0 case also yields a
non-negative value). -/
theorem normShift_nonneg (n m : ℤ) (hm : 0 < m) : 0 ≤ normShift n m := by
  by_cases hn : n = 0
  · subst hn
    unfold normShift
    have h0 : |(0 : ℤ)| - 1 = -1 := by decide
    rw [h0]
    have h1 : (-1 : ℤ).tdiv m = -((1 : ℤ).tdiv m) := by
      rw [Int.neg_tdiv]
    have h2 : (1 : ℤ).tdiv m = 1 / m := Int.tdiv_eq_ediv (by omega) hm.le
    have h3 : 0 ≤ (1 : ℤ) / m := Int.ediv_nonneg (by omega) hm.le
    have h4 : (1 : ℤ) / m ≤ 1 := Int.ediv_le_self m (by omega)
    have h5 : 0 ≤ (-1 : ℤ).tdiv m + 1 := by omega
    have := mul_nonneg h5 hm.le
    omega
  · have ha : 0 ≤ |n| - 1 := by
      have := abs_pos.mpr hn
      omega
    unfold normShift
    rw [(tdiv_nonneg_facts (|n| - 1) m ha hm).1]
    have h1 : |n| - 1 < ((|n| - 1) / m + 1) * m := Int.lt_ediv_add_one_mul_self (|n| - 1) hm
    have h2 : -n ≤ |n| := neg_le_abs n
    omega

/-- The normalized operand is congruent to the original argument modulo m. -/
theorem normShift_emod (n m : ℤ) : normShift n m % m = n % m := by
  unfold normShift
  exact Int.add_mul_emod_self

/-- A table is the cyclic rotation by c of the identity on the live range. -/
def cyclicTable (m c : ℤ) (p : ℤ → ℤ) : Prop :=
  ∀ i, 0 ≤ i → i < m → p i = (i + c) % m

/-- The define-time table is the trivial rotation. -/
theorem cyclic_defineTable (m : ℤ) : cyclicTable m 0 defineTable := by
  intro i h0 h1
  unfold defineTable
  rw [add_zero, Int.emod_eq_of_lt h0 h1]

/-- One shift turns a rotation by c into a rotation by c + normShift n m. -/
theorem cyclic_shiftTable (m n c : ℤ) (hm : 0 < m) (hc : 0 ≤ c) (p : ℤ → ℤ)
    (hp : cyclicTable m c p) :
    cyclicTable m (c + normShift n m) (shiftTable m n p) ∧ 0 ≤ c + normShift n m := by
  have hpos : 0 ≤ normShift n m := normShift_nonneg n m hm
  refine ⟨?_, by omega⟩
  by_cases hn : n = 0
  · subst hn
    intro i h0 h1
    unfold shiftTable
    rw [if_pos rfl, hp i h0 h1]
    have hdvd : m ∣ normShift 0 m := by
      have h := normShift_emod 0 m
      simp only [Int.zero_emod] at h
      exact Int.dvd_of_emod_eq_zero h
    obtain ⟨k, hk⟩ := hdvd
    rw [show i + (c + normShift 0 m) = i + c + k * m by rw [hk]; ring]
    rw [Int.add_mul_emod_self]
  · intro i h0 h1
    unfold shiftTable
    rw [if_neg hn]
    simp only [if_pos (And.intro h0 h1)]
    rw [hp i h0 h1]
    have hnn : 0 ≤ (i + c) % m + normShift n m := by
      have := Int.emod_nonneg (i + c) hm.ne'
      omega
    rw [Int.tmod_eq_emod hnn hm.le, Int.emod_add_emod, add_assoc]

/-- Folding shifts over a cyclic table keeps it cyclic with a non-negative
rotation. -/
theorem foldl_shiftTable_cyclic (m : ℤ) (hm : 0 < m) (l : List ℤ) :
    ∀ p c, 0 ≤ c → cyclicTable m c p →
      ∃ c2, 0 ≤ c2 ∧ cyclicTable m c2 (l.foldl (fun q n => shiftTable m n q) p) := by
  induction l with
  | nil =>
      intro p c hc hp
      exact ⟨c, hc, hp⟩
  | cons a t ih =>
      intro p c hc hp
      obtain ⟨h1, h2⟩ := cyclic_shiftTable m a c hm hc p hp
      exact ih (shiftTable m a p) (c + normShift a m) h2 h1

/-- The table reached from define() by any sequence of shifts is cyclic. -/
theorem applyShifts_cyclic (m : ℤ) (hm : 0 < m) (l : List ℤ) :
    ∃ c, 0 ≤ c ∧ cyclicTable m c (applyShifts m l) :=
  foldl_shiftTable_cyclic m hm l defineTable 0 le_rfl (cyclic_defineTable m)

/-- A cyclic table is a bijection of the live range onto itself. -/
theorem cyclicTable_bijective (m c : ℤ) (hm : 0 < m) (p : ℤ → ℤ)
    (hp : cyclicTable m c p) :
    (∀ i, 0 ≤ i → i < m → 0 ≤ p i ∧ p i < m) ∧
    (∀ i j, 0 ≤ i → i < m → 0 ≤ j → j < m → p i = p j → i = j) ∧
    (∀ v, 0 ≤ v → v < m → ∃ i, 0 ≤ i ∧ i < m ∧ p i = v) := by
  refine ⟨?_, ?_, ?_⟩
  · intro i h0 h1
    rw [hp i h0 h1]
    exact ⟨Int.emod_nonneg _ hm.ne', Int.emod_lt_of_pos _ hm⟩
  · intro i j hi0 hi1 hj0 hj1 heq
    rw [hp i hi0 hi1, hp j hj0 hj1] at heq
    have hd : (i + c - (j + c)) % m = 0 := by
      rw [Int.sub_emod, heq, sub_self, Int.zero_emod]
    rw [show i + c - (j + c) = i - j by ring] at hd
    obtain ⟨k, hk⟩ := Int.dvd_of_emod_eq_zero hd
    rcases lt_trichotomy k 0 with h | h | h
    · have hk1 : k ≤ -1 := by omega
      have : m * k ≤ m * (-1) := mul_le_mul_of_nonneg_left hk1 hm.le
      omega
    · subst h
      rw [mul_zero] at hk
      omega
    · have hk1 : 1 ≤ k := by omega
      have : m * 1 ≤ m * k := mul_le_mul_of_nonneg_left hk1 hm.le
      omega
  · intro v hv0 hv1
    refine ⟨(v - c) % m, Int.emod_nonneg _ hm.ne', Int.emod_lt_of_pos _ hm, ?_⟩
    rw [hp _ (Int.emod_nonneg _ hm.ne') (Int.emod_lt_of_pos _ hm)]
    rw [Int.emod_add_emod, show v - c + c = v by ring]
    exact Int.emod_eq_of_lt hv0 hv1

/-- C4: the permutation table is always a permutation of the physical slots:
define() installs the identity, and after any sequence of shift(n) calls the
entries 0..numSlab-1 stay within range, are pairwise distinct, and cover
every slot; moreover the operand of the mod-numSlab update is always
non-negative. -/
theorem c4_ptable_is_permutation (m : ℤ) (hm : 0 < m) (l : List ℤ) :
    (∀ i : ℤ, defineTable i = i) ∧
    (∀ i, 0 ≤ i → i < m → 0 ≤ applyShifts m l i ∧ applyShifts m l i < m) ∧
    (∀ i j, 0 ≤ i → i < m → 0 ≤ j → j < m →
      applyShifts m l i = applyShifts m l j → i = j) ∧
    (∀ v, 0 ≤ v → v < m → ∃ i, 0 ≤ i ∧ i < m ∧ applyShifts m l i = v) ∧
    (∀ n : ℤ, n ≠ 0 → ∀ i, 0 ≤ i → i < m → 0 ≤ applyShifts m l i + normShift n m) := by
  obtain ⟨c, hc, hcyc⟩ := applyShifts_cyclic m hm l
  obtain ⟨hrange, hinj, hsurj⟩ := cyclicTable_bijective m c hm _ hcyc
  refine ⟨fun i => rfl, hrange, hinj, hsurj, ?_⟩
  intro n _ i h0 h1
  have := (hrange i h0 h1).1
  have := normShift_nonneg n m hm
  omega

/-- Witness for C4: table of live depth 4 after shifts by 3 and -5. -/
theorem c4_witness :
    (0 : ℤ) < 4 ∧ 0 ≤ applyShifts 4 [3, -5] 1 ∧ applyShifts 4 [3, -5] 1 < 4 :=
  ⟨by decide, (c4_ptable_is_permutation 4 (by decide) [3, -5]).2.1 1 (by decide) (by decide)⟩

/-
  SlabFab: the sliding-window slab cache (CudaFab.H, SlabFab).  The model
  fixes the normal direction nrmDir = g_SpaceDim - 1 = 2 (the configuration
  of the spec's concrete scenario; the D_TERM index arithmetic is unrolled
  per axis in the source as well).  Cache values are modelled as ℤ and the
  caller-provided local memory as a total function from flat offsets
  (relative to the fixed m_data pointer, which SlabFab::shift never moves)
  to values.
-/

/-- Static SlabFab configuration established by define(): the define-time
window box (its cross-direction bounds never change afterwards), component
count, first source component, the source view as a value function, and the
lane-group width blockDim.x. -/
structure SlabCfg where
  box0 : Box
  ncomp : ℤ
  compBegSrc : ℤ
  src : IntVect → ℤ → ℤ
  blockDim : ℤ

namespace SlabCfg

/-- m_stride, computed by setStride from the define-time box. -/
def stride (c : SlabCfg) : IntVect := c.box0.getStride

/-- m_size, the box size. -/
def size (c : SlabCfg) : ℤ := c.box0.size

/-- numSlab: the window extent along the normal direction (axis 2). -/
def numSlab (c : SlabCfg) : ℤ := c.box0.hi.z - c.box0.lo.z + 1

/-- m_numPntSlab: the point count of a one-cell slab (the dimensions with
the normal component set to 1, multiplied out). -/
def numPntSlab (c : SlabCfg) : ℤ :=
  (c.box0.hi.x - c.box0.lo.x + 1) * (c.box0.hi.y - c.box0.lo.y + 1)

/-- The per-lane coordinate established by define(): lane t resolves its
cross coordinates from its lane index via m_box.linToVec(t, vec), and every
loadSlab call overwrites the normal component with the slab coordinate. -/
def cursor (c : SlabCfg) (t : ℤ) (locND : ℤ) : IntVect :=
  ⟨(c.box0.linToVec t c.stride).x, (c.box0.linToVec t c.stride).y, locND⟩

/-- Geometric well-formedness from define(): a normal box with more than one
slab (the source asserts numSlab > 1) and a non-negative component count. -/
def wf (c : SlabCfg) : Prop :=
  c.box0.lo.le c.box0.hi ∧ 1 < c.numSlab ∧ 0 ≤ c.ncomp

end SlabCfg

/-- Mutable SlabFab state: the window box, the permutation table and the
cached payload (the shared local memory). -/
structure SlabState where
  box : Box
  pTable : ℤ → ℤ
  mem : ℤ → ℤ

/-- SlabFab::index: the normal component is translated through the
permutation table relative to the window's low bound along the normal
direction, then the strided sum of the source's D_TERM is taken. -/
def slabIndex (c : SlabCfg) (st : SlabState) (iv : IntVect) : ℤ :=
  iv.x + iv.y * c.stride.y + st.pTable (iv.z - st.box.lo.z) * c.stride.z

/-- Value visible through SlabFab::operator(): m_data[a_icomp*m_size +
index(a_iv)]. -/
def readCache (c : SlabCfg) (st : SlabState) (iv : IntVect) (icomp : ℤ) : ℤ :=
  st.mem (icomp * c.size + slabIndex c st iv)

/-- SlabFab::selectLoadMethod: m_numSubBox = -3 when the block is exactly
the slab size, -2 when the slab fits in the requested lane count; otherwise
the source hits CH_assert(false), modelled as none. -/
def selectLoadMethod (blockDim numThr numPntSlab : ℤ) : Option ℤ :=
  if blockDim = numThr ∧ blockDim = numPntSlab then some (-3)
  else if numPntSlab ≤ numThr then some (-2)
  else none

/-- Which lanes copy during SlabFab::loadSlab: strategy -3 has no lane
guard (every lane of the block copies its own point); strategy -2 admits
lanes with idxThr = t - idxThr0 in [0, numPntSlab); any other selector value
falls through the switch without copying. -/
def participates (sel idxThr0 nps t : ℤ) : Bool :=
  if sel = -3 then true
  else if sel = -2 then decide (0 ≤ t - idxThr0 ∧ t - idxThr0 < nps)
  else false

/-- Apply a list of (address, value) stores in order. -/
def applyWrites (mem : ℤ → ℤ) : List (ℤ × ℤ) → (ℤ → ℤ)
  | [] => mem
  | av :: rest => applyWrites (Function.update mem av.1 av.2) rest

/-- The stores issued by one SlabFab::loadSlab call: each participating lane
t writes, for every source component iC in [m_compBegSrc, m_compBegSrc +
m_ncomp), the source value at its cursor coordinate into the cache at
address iC*m_size + index(cursor). -/
def writeList (c : SlabCfg) (st : SlabState) (sel idxThr0 locND : ℤ) : List (ℤ × ℤ) :=
  ((List.map (fun t : ℕ => (t : ℤ)) (List.range c.blockDim.toNat)).filter
      (fun t => participates sel idxThr0 c.numPntSlab t)).flatMap
    (fun t => List.map (fun j : ℕ =>
      ((c.compBegSrc + (j : ℤ)) * c.size + slabIndex c st (c.cursor t locND),
       c.src (c.cursor t locND) (c.compBegSrc + (j : ℤ)))) (List.range c.ncomp.toNat))

/-- SlabFab::loadSlab: performs the stores; box and table are untouched. -/
def loadSlab (c : SlabCfg) (sel idxThr0 locND : ℤ) (st : SlabState) : SlabState :=
  { st with mem := applyWrites st.mem (writeList c st sel idxThr0 locND) }

/-- SlabFab::shift(int): zero is a no-op; otherwise lane 0 shifts the box
along the normal direction and the first numSlab lanes rotate the
permutation table; the payload is untouched. -/
def shiftRot (c : SlabCfg) (n : ℤ) (st : SlabState) : SlabState :=
  if n = 0 then st
  else { box := st.box.shift n 2
         pTable := shiftTable c.numSlab n st.pTable
         mem := st.mem }

/-- The loop of SlabFab::shift(int, cursor): one loadSlab per normal-direction
coordinate from locNDBeg upward, cnt slabs in all. -/
def loadRange (c : SlabCfg) (sel : ℤ) (beg : ℤ) (cnt : ℕ) (st : SlabState) : SlabState :=
  (List.map (fun j : ℕ => beg + (j : ℤ)) (List.range cnt)).foldl
    (fun s z => loadSlab c sel 0 z s) st

/-- SlabFab::shift(int, cursor): zero returns early; otherwise rotate with
shift(int), then reload the |n| newly exposed slabs — for n > 0 the
coordinates [hi - |n| + 1, hi] of the updated window, for n < 0 the
coordinates [lo, lo + |n| - 1] — each by one loadSlab over the whole block. -/
def shiftLoad (c : SlabCfg) (sel n : ℤ) (st : SlabState) : SlabState :=
  if n = 0 then st
  else
    let st1 := shiftRot c n st
    let beg := if 0 < n then st1.box.hi.z - |n| + 1 else st1.box.lo.z
    loadRange c sel beg n.natAbs st1

/-- The cross-direction bounds of a coordinate lie within the window. -/
def crossIn (c : SlabCfg) (p : IntVect) : Prop :=
  c.box0.lo.x ≤ p.x ∧ p.x ≤ c.box0.hi.x ∧ c.box0.lo.y ≤ p.y ∧ p.y ≤ c.box0.hi.y

/-- Reachable-state invariant of a SlabFab: the cross-direction bounds still
equal the define-time ones, the window depth equals numSlab, and the
permutation table is one of the cyclic rotations produced by define() and
shift(int) (see applyShifts_cyclic). -/
def reached (c : SlabCfg) (st : SlabState) : Prop :=
  st.box.lo.x = c.box0.lo.x ∧ st.box.hi.x = c.box0.hi.x ∧
  st.box.lo.y = c.box0.lo.y ∧ st.box.hi.y = c.box0.hi.y ∧
  st.box.hi.z - st.box.lo.z + 1 = c.numSlab ∧
  ∃ cc, 0 ≤ cc ∧ cyclicTable c.numSlab cc st.pTable

/-- An address touched by no store keeps its previous content. -/
theorem applyWrites_not_mem (l : List (ℤ × ℤ)) :
    ∀ (mem : ℤ → ℤ) (a : ℤ), (∀ av ∈ l, av.1 ≠ a) → applyWrites mem l a = mem a := by
  induction l with
  | nil =>
      intro mem a _
      rfl
  | cons av rest ih =>
      intro mem a h
      have h1 : av.1 ≠ a := h av (List.mem_cons_self av rest)
      show applyWrites (Function.update mem av.1 av.2) rest a = mem a
      rw [ih _ a (fun e he => h e (List.mem_cons_of_mem av he))]
      exact Function.update_noteq (Ne.symm h1) _ _

/-- An address all of whose stores carry the same value v ends up holding v
provided at least one store touches it. -/
theorem applyWrites_const (l : List (ℤ × ℤ)) :
    ∀ (mem : ℤ → ℤ) (a v : ℤ), (∃ av ∈ l, av.1 = a) →
      (∀ av ∈ l, av.1 = a → av.2 = v) → applyWrites mem l a = v := by
  induction l with
  | nil =>
      intro mem a v h _
      obtain ⟨e, he, _⟩ := h
      exact absurd he (List.not_mem_nil e)
  | cons av rest ih =>
      intro mem a v hex hall
      show applyWrites (Function.update mem av.1 av.2) rest a = v
      by_cases hr : ∃ e ∈ rest, e.1 = a
      · exact ih _ a v hr (fun e he h1 => hall e (List.mem_cons_of_mem av he) h1)
      · have hhead : av.1 = a := by
          obtain ⟨e, he, h1⟩ := hex
          rcases List.mem_cons.mp he with h | h
          · rw [← h]
            exact h1
          · exact absurd ⟨e, h, h1⟩ hr
        rw [applyWrites_not_mem rest _ a (fun e he hc => hr ⟨e, he, hc⟩)]
        rw [← hhead, Function.update_same]
        exact hall av (List.mem_cons_self av rest) hhead

/-- Membership in an integer-cast range list. -/
theorem mem_intRange (N : ℕ) (t : ℤ) :
    t ∈ List.map (fun k : ℕ => (k : ℤ)) (List.range N) ↔ 0 ≤ t ∧ t < (N : ℤ) := by
  constructor
  · intro h
    obtain ⟨k, hk, he⟩ := List.mem_map.mp h
    have hk2 : k < N := List.mem_range.mp hk
    subst he
    exact ⟨Int.ofNat_nonneg k, by exact_mod_cast hk2⟩
  · intro h
    apply List.mem_map.mpr
    refine ⟨t.toNat, List.mem_range.mpr ?_, ?_⟩
    · omega
    · show ((t.toNat : ℕ) : ℤ) = t
      omega

/-- One level of mixed-radix uniqueness: digits below w and arbitrary
multiples of w decompose uniquely. -/
theorem digit_level (w u u2 k k2 : ℤ) (hw : 0 < w) (hu : 0 ≤ u) (hu1 : u < w)
    (hv : 0 ≤ u2) (hv1 : u2 < w) (h : u + k * w = u2 + k2 * w) : u = u2 ∧ k = k2 := by
  have hd : (k - k2) * w = u2 - u := by linear_combination h
  rcases lt_trichotomy (k - k2) 0 with hk | hk | hk
  · have h1 : k - k2 ≤ -1 := by omega
    have h2 : (k - k2) * w ≤ (-1) * w := mul_le_mul_of_nonneg_right h1 hw.le
    omega
  · have : k = k2 := by omega
    subst this
    omega
  · have h1 : 1 ≤ k - k2 := by omega
    have h2 : 1 * w ≤ (k - k2) * w := mul_le_mul_of_nonneg_right h1 hw.le
    omega

/-- Uniqueness of the (point-in-slab, slot, component) decomposition of a
cache address: component times the box size plus the cross digits plus the
physical slot times the slab stride. -/
theorem slab_addr_inj (e0 e1 m : ℤ) (he0 : 0 < e0) (he1 : 0 < e1) (hm : 0 < m)
    (a b s iC a2 b2 s2 jC : ℤ)
    (ha0 : 0 ≤ a) (ha1 : a < e0) (hb0 : 0 ≤ b) (hb1 : b < e1)
    (hs0 : 0 ≤ s) (hs1 : s < m)
    (ha0' : 0 ≤ a2) (ha1' : a2 < e0) (hb0' : 0 ≤ b2) (hb1' : b2 < e1)
    (hs0' : 0 ≤ s2) (hs1' : s2 < m)
    (h : iC * (e0 * e1 * m) + (a + b * e0 + s * (e0 * e1)) =
         jC * (e0 * e1 * m) + (a2 + b2 * e0 + s2 * (e0 * e1))) :
    iC = jC ∧ a = a2 ∧ b = b2 ∧ s = s2 := by
  have hin : ∀ x y z : ℤ, 0 ≤ x → x < e0 → 0 ≤ y → y < e1 → 0 ≤ z → z < m →
      0 ≤ x + y * e0 + z * (e0 * e1) ∧ x + y * e0 + z * (e0 * e1) < e0 * e1 * m := by
    intro x y z hx0 hx1 hy0 hy1 hz0 hz1
    have h1 : y * e0 ≤ (e1 - 1) * e0 := mul_le_mul_of_nonneg_right (by omega) he0.le
    have h2 : z * (e0 * e1) ≤ (m - 1) * (e0 * e1) :=
      mul_le_mul_of_nonneg_right (by omega) (by positivity)
    have h3 : 0 ≤ y * e0 := mul_nonneg hy0 he0.le
    have h4 : 0 ≤ z * (e0 * e1) := mul_nonneg hz0 (by positivity)
    have h5 : (e0 - 1) + (e1 - 1) * e0 + (m - 1) * (e0 * e1) = e0 * e1 * m - 1 := by ring
    omega
  obtain ⟨hL0, hL1⟩ := hin a b s ha0 ha1 hb0 hb1 hs0 hs1
  obtain ⟨hR0, hR1⟩ := hin a2 b2 s2 ha0' ha1' hb0' hb1' hs0' hs1'
  obtain ⟨hu, hk⟩ := digit_level (e0 * e1 * m) _ _ iC jC (by positivity) hL0 hL1 hR0 hR1
    (by linear_combination h)
  refine ⟨hk, ?_⟩
  have hin2 : ∀ x y : ℤ, 0 ≤ x → x < e0 → 0 ≤ y → y < e1 →
      0 ≤ x + y * e0 ∧ x + y * e0 < e0 * e1 := by
    intro x y hx0 hx1 hy0 hy1
    have h1 : y * e0 ≤ (e1 - 1) * e0 := mul_le_mul_of_nonneg_right (by omega) he0.le
    have h3 : 0 ≤ y * e0 := mul_nonneg hy0 he0.le
    have h5 : (e0 - 1) + (e1 - 1) * e0 = e0 * e1 - 1 := by ring
    omega
  obtain ⟨hM0, hM1⟩ := hin2 a b ha0 ha1 hb0 hb1
  obtain ⟨hN0, hN1⟩ := hin2 a2 b2 ha0' ha1' hb0' hb1'
  obtain ⟨hu2, hs⟩ := digit_level (e0 * e1) _ _ s s2 (by positivity) hM0 hM1 hN0 hN1
    (by linear_combination hu)
  obtain ⟨hu3, hb⟩ := digit_level e0 _ _ b b2 he0 ha0 ha1 ha0' ha1' (by linear_combination hu2)
  exact ⟨hu3, hb, hs⟩

/-- Decomposition of the define-time lane cursor: for a lane index within
the slab point count, the cursor's cross coordinates are the base-e0 digits
of the lane index offset by the window's low corner. -/
theorem cursor_decomp (c : SlabCfg) (hwf : c.wf) (t locND : ℤ)
    (h0 : 0 ≤ t) (h1 : t < c.numPntSlab) :
    ∃ r1 q1 : ℤ, 0 ≤ r1 ∧ r1 < c.box0.hi.x - c.box0.lo.x + 1 ∧
      0 ≤ q1 ∧ q1 < c.box0.hi.y - c.box0.lo.y + 1 ∧
      t = r1 + q1 * (c.box0.hi.x - c.box0.lo.x + 1) ∧
      c.cursor t locND = ⟨r1 + c.box0.lo.x, q1 + c.box0.lo.y, locND⟩ := by
  obtain ⟨⟨hx, hy, hz⟩, hns, hnc⟩ := hwf
  have he0 : 0 < c.box0.hi.x - c.box0.lo.x + 1 := by omega
  have he1 : 0 < c.box0.hi.y - c.box0.lo.y + 1 := by omega
  have hnps : c.numPntSlab =
      (c.box0.hi.x - c.box0.lo.x + 1) * (c.box0.hi.y - c.box0.lo.y + 1) := rfl
  have hq2 : t.tdiv ((c.box0.hi.x - c.box0.lo.x + 1) * (c.box0.hi.y - c.box0.lo.y + 1)) = 0 :=
    Int.tdiv_eq_zero_of_lt h0 (by omega)
  obtain ⟨_, hq1n, hr1n, hr1lt⟩ :=
    tdiv_nonneg_facts t (c.box0.hi.x - c.box0.lo.x + 1) h0 he0
  have hq1lt : t.tdiv (c.box0.hi.x - c.box0.lo.x + 1) < c.box0.hi.y - c.box0.lo.y + 1 := by
    refine tdiv_lt_of_lt_mul t _ _ h0 he0 ?_
    rw [hnps] at h1
    nlinarith
  refine ⟨t - t.tdiv (c.box0.hi.x - c.box0.lo.x + 1) * (c.box0.hi.x - c.box0.lo.x + 1),
    t.tdiv (c.box0.hi.x - c.box0.lo.x + 1), hr1n, hr1lt, hq1n, hq1lt, by ring, ?_⟩
  show (⟨(c.box0.linToVec t c.stride).x, (c.box0.linToVec t c.stride).y, locND⟩ : IntVect) = _
  have hstz : c.stride.z = (c.box0.hi.x - c.box0.lo.x + 1) * (c.box0.hi.y - c.box0.lo.y + 1) :=
    rfl
  have hsty : c.stride.y = c.box0.hi.x - c.box0.lo.x + 1 := rfl
  simp only [Box.linToVec, hstz, hsty, hq2, zero_mul, sub_zero]

/-- Every cross coordinate of the window is the cursor of exactly one lane
index within the slab point count. -/
theorem cursor_of_cross (c : SlabCfg) (hwf : c.wf) (p : IntVect) (hcr : crossIn c p) :
    ∃ t : ℤ, 0 ≤ t ∧ t < c.numPntSlab ∧ c.cursor t p.z = p ∧
      ∀ s : ℤ, 0 ≤ s → s < c.numPntSlab → c.cursor s p.z = p → s = t := by
  obtain ⟨hx0, hx1, hy0, hy1⟩ := hcr
  obtain ⟨⟨hx, hy, hz⟩, hns, hnc⟩ := hwf
  have he0 : 0 < c.box0.hi.x - c.box0.lo.x + 1 := by omega
  have he1 : 0 < c.box0.hi.y - c.box0.lo.y + 1 := by omega
  set t := (p.x - c.box0.lo.x) + (p.y - c.box0.lo.y) * (c.box0.hi.x - c.box0.lo.x + 1)
    with ht
  have hbt : 0 ≤ t ∧ t < c.numPntSlab := by
    have hnps : c.numPntSlab =
        (c.box0.hi.x - c.box0.lo.x + 1) * (c.box0.hi.y - c.box0.lo.y + 1) := rfl
    constructor
    · have : 0 ≤ (p.y - c.box0.lo.y) * (c.box0.hi.x - c.box0.lo.x + 1) :=
        mul_nonneg (by omega) he0.le
      omega
    · rw [hnps]
      nlinarith
  obtain ⟨r1, q1, hr0, hr1, hq0, hq1, hdec, hcur⟩ :=
    cursor_decomp c ⟨⟨hx, hy, hz⟩, hns, hnc⟩ t p.z hbt.1 hbt.2
  rw [ht] at hdec
  have hdig := digit_level (c.box0.hi.x - c.box0.lo.x + 1) (p.x - c.box0.lo.x) r1
    (p.y - c.box0.lo.y) q1 he0 (by omega) (by omega) hr0 hr1 (by linear_combination hdec)
  refine ⟨t, hbt.1, hbt.2, ?_, ?_⟩
  · rw [hcur]
    obtain ⟨px, py, pz⟩ := p
    simp only [IntVect.mk.injEq]
    simp only at hdig hx0 hx1 hy0 hy1
    exact ⟨by omega, by omega, by trivial⟩
  · intro s hs0 hs1 hs
    obtain ⟨r1s, q1s, hr0s, hr1s, hq0s, hq1s, hdecs, hcurs⟩ :=
      cursor_decomp c ⟨⟨hx, hy, hz⟩, hns, hnc⟩ s p.z hs0 hs1
    rw [hcurs] at hs
    obtain ⟨px, py, pz⟩ := p
    simp only [IntVect.mk.injEq] at hs
    have h1 : r1s = px - c.box0.lo.x := by omega
    have h2 : q1s = py - c.box0.lo.y := by omega
    rw [hdecs, h1, h2, ht]

/-- Under either exercised loader strategy the set of lanes that copy
during loadSlab (with a_idxThr0 = 0, as in define and shift) is exactly
[0, numPntSlab). -/
theorem lanes_mem (c : SlabCfg) (sel : ℤ)
    (hsel : (sel = -3 ∧ c.blockDim = c.numPntSlab) ∨ (sel = -2 ∧ c.numPntSlab ≤ c.blockDim))
    (hnps : 0 < c.numPntSlab) (t : ℤ) :
    (t ∈ (List.map (fun k : ℕ => (k : ℤ)) (List.range c.blockDim.toNat)).filter
        (fun u => participates sel 0 c.numPntSlab u)) ↔ 0 ≤ t ∧ t < c.numPntSlab := by
  rw [List.mem_filter, mem_intRange]
  rcases hsel with ⟨hs, hb⟩ | ⟨hs, hb⟩
  · subst hs
    have hp : participates (-3) 0 c.numPntSlab t = true := by
      unfold participates
      rw [if_pos rfl]
    rw [hp]
    constructor
    · rintro ⟨⟨h1, h2⟩, _⟩
      exact ⟨h1, by omega⟩
    · rintro ⟨h1, h2⟩
      exact ⟨⟨h1, by omega⟩, rfl⟩
  · subst hs
    have hp : participates (-2) 0 c.numPntSlab t =
        decide (0 ≤ t - 0 ∧ t - 0 < c.numPntSlab) := by
      unfold participates
      rw [if_neg (by decide), if_pos rfl]
    rw [hp]
    simp only [decide_eq_true_eq]
    constructor
    · rintro ⟨⟨h1, _⟩, h3, h4⟩
      exact ⟨h1, by omega⟩
    · rintro ⟨h1, h2⟩
      exact ⟨⟨h1, by omega⟩, by omega, by omega⟩

/-- Unfolding of the permuted strided index for an explicit coordinate. -/
theorem slabIndex_eq (c : SlabCfg) (st : SlabState) (p : IntVect) :
    slabIndex c st p = p.x + p.y * (c.box0.hi.x - c.box0.lo.x + 1) +
      st.pTable (p.z - st.box.lo.z) *
        ((c.box0.hi.x - c.box0.lo.x + 1) * (c.box0.hi.y - c.box0.lo.y + 1)) := rfl

/-- Effect of one loadSlab call on a reached state: the box and table are
untouched, the loaded slab afterwards reads back the source values for the
whole component range, and every other slab of the window reads back exactly
what it read before. -/
theorem loadSlab_effect (c : SlabCfg) (sel : ℤ) (st : SlabState) (locND : ℤ)
    (hwf : c.wf) (hre : reached c st)
    (hsel : (sel = -3 ∧ c.blockDim = c.numPntSlab) ∨ (sel = -2 ∧ c.numPntSlab ≤ c.blockDim))
    (hlo : st.box.lo.z ≤ locND) (hhi : locND ≤ st.box.hi.z) :
    (loadSlab c sel 0 locND st).box = st.box ∧
    (loadSlab c sel 0 locND st).pTable = st.pTable ∧
    (∀ p : IntVect, crossIn c p → p.z = locND →
      ∀ j : ℤ, 0 ≤ j → j < c.ncomp →
        readCache c (loadSlab c sel 0 locND st) p (c.compBegSrc + j) =
          c.src p (c.compBegSrc + j)) ∧
    (∀ p : IntVect, crossIn c p → st.box.lo.z ≤ p.z → p.z ≤ st.box.hi.z → p.z ≠ locND →
      ∀ j : ℤ, 0 ≤ j → j < c.ncomp →
        readCache c (loadSlab c sel 0 locND st) p (c.compBegSrc + j) =
          readCache c st p (c.compBegSrc + j)) := by
  obtain ⟨⟨hx, hy, hz⟩, hns, hnc⟩ := hwf
  obtain ⟨hbx0, hbx1, hby0, hby1, hdepth, cc, hcc, hcyc⟩ := hre
  have hm : 0 < c.numSlab := by omega
  have he0 : (0 : ℤ) < c.box0.hi.x - c.box0.lo.x + 1 := by omega
  have he1 : (0 : ℤ) < c.box0.hi.y - c.box0.lo.y + 1 := by omega
  have hsizeEq : c.size =
      (c.box0.hi.x - c.box0.lo.x + 1) * (c.box0.hi.y - c.box0.lo.y + 1) * c.numSlab := rfl
  have hnpsEq : c.numPntSlab =
      (c.box0.hi.x - c.box0.lo.x + 1) * (c.box0.hi.y - c.box0.lo.y + 1) := rfl
  have hnps : 0 < c.numPntSlab := by
    rw [hnpsEq]
    positivity
  obtain ⟨hrange, hinj, _⟩ := cyclicTable_bijective c.numSlab cc hm st.pTable hcyc
  have hlog0 : 0 ≤ locND - st.box.lo.z := by omega
  have hlog1 : locND - st.box.lo.z < c.numSlab := by omega
  obtain ⟨hslot0, hslot1⟩ := hrange _ hlog0 hlog1
  refine ⟨rfl, rfl, ?_, ?_⟩
  · intro p hcr hpz j hj0 hj1
    obtain ⟨t0, ht00, ht01, ht0c, _⟩ :=
      cursor_of_cross c ⟨⟨hx, hy, hz⟩, hns, hnc⟩ p hcr
    rw [hpz] at ht0c
    show applyWrites st.mem (writeList c st sel 0 locND)
        ((c.compBegSrc + j) * c.size + slabIndex c st p) = c.src p (c.compBegSrc + j)
    apply applyWrites_const
    · refine ⟨((c.compBegSrc + j) * c.size + slabIndex c st (c.cursor t0 locND),
        c.src (c.cursor t0 locND) (c.compBegSrc + j)), ?_, ?_⟩
      · unfold writeList
        apply List.mem_flatMap.mpr
        refine ⟨t0, (lanes_mem c sel hsel hnps t0).mpr ⟨ht00, ht01⟩, ?_⟩
        apply List.mem_map.mpr
        refine ⟨j.toNat, List.mem_range.mpr (by omega), ?_⟩
        have hjc : ((j.toNat : ℕ) : ℤ) = j := by omega
        rw [hjc]
      · rw [ht0c]
    · rintro ⟨a1, a2⟩ hav h1
      unfold writeList at hav
      obtain ⟨t1, ht1mem, hin⟩ := List.mem_flatMap.mp hav
      obtain ⟨j1, hj1mem, hpair⟩ := List.mem_map.mp hin
      obtain ⟨ht10, ht11⟩ := (lanes_mem c sel hsel hnps t1).mp ht1mem
      have hj1lt : (j1 : ℤ) < c.ncomp := by
        have := List.mem_range.mp hj1mem
        omega
      have hj1nn : (0 : ℤ) ≤ (j1 : ℤ) := Int.ofNat_nonneg j1
      rw [Prod.mk.injEq] at hpair
      obtain ⟨ha1, ha2⟩ := hpair
      obtain ⟨r1, q1, hr0, hr1, hq0, hq1, _, hcur1⟩ :=
        cursor_decomp c ⟨⟨hx, hy, hz⟩, hns, hnc⟩ t1 locND ht10 ht11
      rw [← ha1] at h1
      rw [hcur1] at h1 ha2
      rw [slabIndex_eq, slabIndex_eq] at h1
      obtain ⟨hcr0, hcr1, hcr2, hcr3⟩ := hcr
      have hkey := slab_addr_inj (c.box0.hi.x - c.box0.lo.x + 1)
        (c.box0.hi.y - c.box0.lo.y + 1) c.numSlab he0 he1 hm
        r1 q1 (st.pTable (locND - st.box.lo.z)) (c.compBegSrc + (j1 : ℤ))
        (p.x - c.box0.lo.x) (p.y - c.box0.lo.y) (st.pTable (p.z - st.box.lo.z))
        (c.compBegSrc + j)
        hr0 hr1 hq0 hq1 hslot0 hslot1
        (by omega) (by omega) (by omega) (by omega)
        (by rw [hpz]; exact hslot0) (by rw [hpz]; exact hslot1)
        (by
          rw [hsizeEq] at h1
          dsimp only at h1
          linear_combination h1)
      obtain ⟨hcomp, hxx, hyy, _⟩ := hkey
      rw [← ha2]
      have hvec : (⟨r1 + c.box0.lo.x, q1 + c.box0.lo.y, locND⟩ : IntVect) = p := by
        obtain ⟨px, py, pz⟩ := p
        simp only [IntVect.mk.injEq]
        simp only at hxx hyy hpz
        exact ⟨by omega, by omega, by omega⟩
      rw [hvec, hcomp]
  · intro p hcr hpz0 hpz1 hpzne j hj0 hj1
    show applyWrites st.mem (writeList c st sel 0 locND)
        ((c.compBegSrc + j) * c.size + slabIndex c st p) =
      st.mem ((c.compBegSrc + j) * c.size + slabIndex c st p)
    apply applyWrites_not_mem
    rintro ⟨a1, a2⟩ hav heq
    unfold writeList at hav
    obtain ⟨t1, ht1mem, hin⟩ := List.mem_flatMap.mp hav
    obtain ⟨j1, hj1mem, hpair⟩ := List.mem_map.mp hin
    obtain ⟨ht10, ht11⟩ := (lanes_mem c sel hsel hnps t1).mp ht1mem
    have hj1lt : (j1 : ℤ) < c.ncomp := by
      have := List.mem_range.mp hj1mem
      omega
    rw [Prod.mk.injEq] at hpair
    obtain ⟨ha1, _⟩ := hpair
    obtain ⟨r1, q1, hr0, hr1, hq0, hq1, _, hcur1⟩ :=
      cursor_decomp c ⟨⟨hx, hy, hz⟩, hns, hnc⟩ t1 locND ht10 ht11
    simp only at heq
    rw [← ha1, hcur1, slabIndex_eq, slabIndex_eq] at heq
    obtain ⟨hcr0, hcr1, hcr2, hcr3⟩ := hcr
    have hlogp0 : 0 ≤ p.z - st.box.lo.z := by omega
    have hlogp1 : p.z - st.box.lo.z < c.numSlab := by omega
    obtain ⟨hslotp0, hslotp1⟩ := hrange _ hlogp0 hlogp1
    have hkey := slab_addr_inj (c.box0.hi.x - c.box0.lo.x + 1)
      (c.box0.hi.y - c.box0.lo.y + 1) c.numSlab he0 he1 hm
      r1 q1 (st.pTable (locND - st.box.lo.z)) (c.compBegSrc + (j1 : ℤ))
      (p.x - c.box0.lo.x) (p.y - c.box0.lo.y) (st.pTable (p.z - st.box.lo.z))
      (c.compBegSrc + j)
      hr0 hr1 hq0 hq1 hslot0 hslot1
      (by omega) (by omega) (by omega) (by omega) hslotp0 hslotp1
      (by
        rw [hsizeEq] at heq
        dsimp only at heq
        linear_combination heq)
    obtain ⟨_, _, _, hslots⟩ := hkey
    have := hinj _ _ hlog0 hlog1 hlogp0 hlogp1 hslots
    omega

/-- Shifting a box along axis 2 in explicit component form. -/
theorem Box.shift_axis2 (b : Box) (n : ℤ) :
    b.shift n 2 = ⟨⟨b.lo.x, b.lo.y, b.lo.z + n⟩, ⟨b.hi.x, b.hi.y, b.hi.z + n⟩⟩ := rfl

/-- Unfolding of shiftRot for a nonzero shift. -/
theorem shiftRot_eq (c : SlabCfg) (n : ℤ) (st : SlabState) (hn : n ≠ 0) :
    (shiftRot c n st).box = st.box.shift n 2 ∧
    (shiftRot c n st).pTable = shiftTable c.numSlab n st.pTable ∧
    (shiftRot c n st).mem = st.mem := by
  unfold shiftRot
  rw [if_neg hn]
  exact ⟨rfl, rfl, rfl⟩

/-- The rotation preserves the reachable-state invariant. -/
theorem shiftRot_reached (c : SlabCfg) (n : ℤ) (st : SlabState)
    (hm : 0 < c.numSlab) (hre : reached c st) : reached c (shiftRot c n st) := by
  by_cases hn : n = 0
  · subst hn
    unfold shiftRot
    rw [if_pos rfl]
    exact hre
  · obtain ⟨hbx0, hbx1, hby0, hby1, hdepth, cc, hcc, hcyc⟩ := hre
    obtain ⟨hbox, htab, _⟩ := shiftRot_eq c n st hn
    rw [Box.shift_axis2] at hbox
    obtain ⟨h1, h2⟩ := cyclic_shiftTable c.numSlab n cc hm hcc st.pTable hcyc
    refine ⟨?_, ?_, ?_, ?_, ?_, cc + normShift n c.numSlab, h2, ?_⟩
    · rw [hbox]
      exact hbx0
    · rw [hbox]
      exact hbx1
    · rw [hbox]
      exact hby0
    · rw [hbox]
      exact hby1
    · rw [hbox]
      dsimp only
      omega
    · rw [htab]
      exact h1

/-- The rotated table looked up at the new logical offset equals the old
table at the old logical offset displaced by the shift. -/
theorem shiftTable_logical (m n cc : ℤ) (hm : 0 < m) (_hcc : 0 ≤ cc) (p : ℤ → ℤ)
    (hp : cyclicTable m cc p) (j : ℤ) (hj0 : 0 ≤ j) (hj1 : j < m)
    (hjn0 : 0 ≤ j + n) (hjn1 : j + n < m) :
    shiftTable m n p j = p (j + n) := by
  by_cases hn : n = 0
  · subst hn
    unfold shiftTable
    rw [if_pos rfl, add_zero]
  · unfold shiftTable
    rw [if_neg hn]
    simp only [if_pos (And.intro hj0 hj1)]
    rw [hp j hj0 hj1, hp (j + n) hjn0 hjn1]
    have hN := normShift_nonneg n m hm
    have hjc0 := Int.emod_nonneg (j + cc) hm.ne'
    rw [Int.tmod_eq_emod (by omega) hm.le, Int.emod_add_emod]
    rw [Int.emod_eq_emod_iff_emod_sub_eq_zero]
    rw [show j + cc + normShift n m - (j + n + cc) = normShift n m - n by ring]
    rw [Int.sub_emod, normShift_emod, sub_self, Int.zero_emod]

/-- A point visible in both the old and the rotated window reads the same
cached value before and after the rotation: only the table and bounds
change, and the indirections cancel. -/
theorem readCache_shiftRot (c : SlabCfg) (n : ℤ) (st : SlabState)
    (hm : 0 < c.numSlab) (hre : reached c st) (p : IntVect)
    (hnew0 : 0 ≤ p.z - (st.box.lo.z + n)) (hnew1 : p.z - (st.box.lo.z + n) < c.numSlab)
    (hold0 : 0 ≤ p.z - st.box.lo.z) (hold1 : p.z - st.box.lo.z < c.numSlab) (iC : ℤ) :
    readCache c (shiftRot c n st) p iC = readCache c st p iC := by
  by_cases hn : n = 0
  · subst hn
    unfold shiftRot
    rw [if_pos rfl]
  · obtain ⟨hbx0, hbx1, hby0, hby1, hdepth, cc, hcc, hcyc⟩ := hre
    obtain ⟨hbox, htab, hmem⟩ := shiftRot_eq c n st hn
    unfold readCache
    rw [hmem]
    rw [slabIndex_eq, slabIndex_eq, hbox, htab, Box.shift_axis2]
    dsimp only
    rw [show p.z - (st.box.lo.z + n) = p.z - st.box.lo.z - n by ring]
    rw [shiftTable_logical c.numSlab n cc hm hcc st.pTable hcyc
      (p.z - st.box.lo.z - n) (by omega) (by omega) (by omega) (by omega)]
    rw [show p.z - st.box.lo.z - n + n = p.z - st.box.lo.z by ring]

/-- Effect of the reload loop of shift(int, cursor): loading the slabs
[beg, beg + cnt) of the window refreshes exactly those slabs from the
source and leaves every other slab of the window reading unchanged. -/
theorem loadRange_effect (c : SlabCfg) (sel : ℤ) (hwf : c.wf)
    (hsel : (sel = -3 ∧ c.blockDim = c.numPntSlab) ∨ (sel = -2 ∧ c.numPntSlab ≤ c.blockDim)) :
    ∀ (cnt : ℕ) (beg : ℤ) (st : SlabState), reached c st →
      st.box.lo.z ≤ beg → beg + (cnt : ℤ) ≤ st.box.hi.z + 1 →
      (loadRange c sel beg cnt st).box = st.box ∧
      (loadRange c sel beg cnt st).pTable = st.pTable ∧
      (∀ p : IntVect, crossIn c p → beg ≤ p.z → p.z < beg + (cnt : ℤ) →
        ∀ j : ℤ, 0 ≤ j → j < c.ncomp →
          readCache c (loadRange c sel beg cnt st) p (c.compBegSrc + j) =
            c.src p (c.compBegSrc + j)) ∧
      (∀ p : IntVect, crossIn c p → st.box.lo.z ≤ p.z → p.z ≤ st.box.hi.z →
        (p.z < beg ∨ beg + (cnt : ℤ) ≤ p.z) →
        ∀ j : ℤ, 0 ≤ j → j < c.ncomp →
          readCache c (loadRange c sel beg cnt st) p (c.compBegSrc + j) =
            readCache c st p (c.compBegSrc + j)) := by
  intro cnt
  induction cnt with
  | zero =>
      intro beg st hre _ _
      refine ⟨rfl, rfl, ?_, ?_⟩
      · intro p _ h1 h2 _ _ _
        omega
      · intro p _ _ _ _ j _ _
        rfl
  | succ cnt ih =>
      intro beg st hre hbeg hend
      have hstep : loadRange c sel beg (cnt + 1) st =
          loadSlab c sel 0 (beg + (cnt : ℤ)) (loadRange c sel beg cnt st) := by
        unfold loadRange
        rw [List.range_succ, List.map_append, List.foldl_append]
        rfl
      obtain ⟨hbox, htab, hload, hframe⟩ := ih beg st hre hbeg (by omega)
      have hres : reached c (loadRange c sel beg cnt st) := by
        unfold reached at hre ⊢
        rw [hbox, htab]
        exact hre
      have heff := loadSlab_effect c sel (loadRange c sel beg cnt st) (beg + (cnt : ℤ))
        hwf hres hsel (by rw [hbox]; omega) (by rw [hbox]; omega)
      rw [← hstep] at heff
      obtain ⟨hbox2, htab2, hload2, hframe2⟩ := heff
      refine ⟨by rw [hbox2, hbox], by rw [htab2, htab], ?_, ?_⟩
      · intro p hcr h1 h2 j hj0 hj1
        by_cases hz : p.z = beg + (cnt : ℤ)
        · exact hload2 p hcr hz j hj0 hj1
        · rw [hframe2 p hcr (by rw [hbox]; omega) (by rw [hbox]; omega) hz j hj0 hj1]
          push_cast at h2
          exact hload p hcr h1 (by omega) j hj0 hj1
      · intro p hcr h1 h2 hout j hj0 hj1
        have hz : p.z ≠ beg + (cnt : ℤ) := by
          push_cast at hout
          omega
        rw [hframe2 p hcr (by rw [hbox]; omega) (by rw [hbox]; omega) hz j hj0 hj1]
        push_cast at hout
        exact hframe p hcr h1 h2 (by omega) j hj0 hj1

/-- Effect of the composed shift(int, cursor) with a nonzero argument whose
magnitude is at most the window depth: the window translates along the
normal direction, the table rotates, the |n| newly exposed slabs (the
trailing edge in the direction of travel) read back fresh source values, and
every slab shared by the old and new windows reads back exactly its
pre-shift value. -/
theorem shiftLoad_effect (c : SlabCfg) (sel n : ℤ) (st : SlabState)
    (hwf : c.wf)
    (hsel : (sel = -3 ∧ c.blockDim = c.numPntSlab) ∨ (sel = -2 ∧ c.numPntSlab ≤ c.blockDim))
    (hre : reached c st) (hn : n ≠ 0) (habs : |n| ≤ c.numSlab) :
    (shiftLoad c sel n st).box = st.box.shift n 2 ∧
    (shiftLoad c sel n st).pTable = shiftTable c.numSlab n st.pTable ∧
    reached c (shiftLoad c sel n st) ∧
    (∀ p : IntVect, crossIn c p →
      ((0 < n ∧ st.box.hi.z + 1 ≤ p.z ∧ p.z ≤ st.box.hi.z + n) ∨
       (n < 0 ∧ st.box.lo.z + n ≤ p.z ∧ p.z ≤ st.box.lo.z - 1)) →
      ∀ j : ℤ, 0 ≤ j → j < c.ncomp →
        readCache c (shiftLoad c sel n st) p (c.compBegSrc + j) =
          c.src p (c.compBegSrc + j)) ∧
    (∀ p : IntVect, crossIn c p →
      ((0 < n ∧ st.box.lo.z + n ≤ p.z ∧ p.z ≤ st.box.hi.z) ∨
       (n < 0 ∧ st.box.lo.z ≤ p.z ∧ p.z ≤ st.box.hi.z + n)) →
      ∀ j : ℤ, 0 ≤ j → j < c.ncomp →
        readCache c (shiftLoad c sel n st) p (c.compBegSrc + j) =
          readCache c st p (c.compBegSrc + j)) := by
  have hm : 0 < c.numSlab := by
    obtain ⟨_, hns, _⟩ := hwf
    omega
  obtain ⟨hb1, ht1, hm1⟩ := shiftRot_eq c n st hn
  have hre1 := shiftRot_reached c n st hm hre
  have hdepth : st.box.hi.z - st.box.lo.z + 1 = c.numSlab := hre.2.2.2.2.1
  have hsl : shiftLoad c sel n st =
      loadRange c sel
        (if 0 < n then (shiftRot c n st).box.hi.z - |n| + 1 else (shiftRot c n st).box.lo.z)
        n.natAbs (shiftRot c n st) := by
    unfold shiftLoad
    rw [if_neg hn]
  have hz1 : (shiftRot c n st).box.lo.z = st.box.lo.z + n := by
    rw [hb1, Box.shift_axis2]
  have hz2 : (shiftRot c n st).box.hi.z = st.box.hi.z + n := by
    rw [hb1, Box.shift_axis2]
  obtain ⟨habs1, habs2⟩ := abs_le.mp habs
  rcases lt_trichotomy n 0 with hneg | h0 | hpos
  · have hbeg : (if 0 < n then (shiftRot c n st).box.hi.z - |n| + 1
        else (shiftRot c n st).box.lo.z) = st.box.lo.z + n := by
      rw [if_neg (by omega), hz1]
    rw [hsl, hbeg]
    have hcnt : ((n.natAbs : ℕ) : ℤ) = -n := by omega
    obtain ⟨hbox, htab, hload, hframe⟩ := loadRange_effect c sel hwf hsel n.natAbs
      (st.box.lo.z + n) (shiftRot c n st) hre1 (by rw [hz1])
      (by rw [hcnt, hz2]; omega)
    refine ⟨by rw [hbox, hb1], by rw [htab, ht1], ?_, ?_, ?_⟩
    · unfold reached at hre1 ⊢
      rw [hbox, htab]
      exact hre1
    · intro p hcr hrange j hj0 hj1
      rcases hrange with ⟨hp, _, _⟩ | ⟨_, hp1, hp2⟩
      · omega
      · exact hload p hcr (by omega) (by rw [hcnt]; omega) j hj0 hj1
    · intro p hcr hrange j hj0 hj1
      rcases hrange with ⟨hp, _, _⟩ | ⟨_, hp1, hp2⟩
      · omega
      · rw [hframe p hcr (by omega) (by rw [hz2]; omega) (by rw [hcnt]; omega) j hj0 hj1]
        exact readCache_shiftRot c n st hm hre p (by omega) (by omega) (by omega)
          (by omega) (c.compBegSrc + j)
  · exact absurd h0 hn
  · have hbeg : (if 0 < n then (shiftRot c n st).box.hi.z - |n| + 1
        else (shiftRot c n st).box.lo.z) = st.box.hi.z + 1 := by
      rw [if_pos hpos, hz2, abs_of_pos hpos]
      ring
    rw [hsl, hbeg]
    have hcnt : ((n.natAbs : ℕ) : ℤ) = n := by omega
    obtain ⟨hbox, htab, hload, hframe⟩ := loadRange_effect c sel hwf hsel n.natAbs
      (st.box.hi.z + 1) (shiftRot c n st) hre1 (by rw [hz1]; omega)
      (by rw [hcnt, hz2]; omega)
    refine ⟨by rw [hbox, hb1], by rw [htab, ht1], ?_, ?_, ?_⟩
    · unfold reached at hre1 ⊢
      rw [hbox, htab]
      exact hre1
    · intro p hcr hrange j hj0 hj1
      rcases hrange with ⟨_, hp1, hp2⟩ | ⟨hp, _, _⟩
      · exact hload p hcr (by omega) (by rw [hcnt]; omega) j hj0 hj1
      · omega
    · intro p hcr hrange j hj0 hj1
      rcases hrange with ⟨_, hp1, hp2⟩ | ⟨hp, _, _⟩
      · rw [hframe p hcr (by rw [hz1]; omega) (by rw [hz2]; omega) (by omega) j hj0 hj1]
        exact readCache_shiftRot c n st hm hre p (by omega) (by omega) (by omega)
          (by omega) (c.compBegSrc + j)
      · omega

/-- Shifting the window by k and back along the normal axis restores the
box. -/
theorem Box.shift_cancel_axis2 (b : Box) (k : ℤ) : (b.shift k 2).shift (-k) 2 = b := by
  rw [Box.shift_axis2, Box.shift_axis2]
  obtain ⟨⟨lx, ly, lz⟩, ⟨gx, gy, gz⟩⟩ := b
  dsimp only
  have h1 : lz + k + -k = lz := by ring
  have h2 : gz + k + -k = gz := by ring
  rw [h1, h2]

instance (c : SlabCfg) : Decidable c.wf := by
  unfold SlabCfg.wf
  infer_instance

instance (c : SlabCfg) (p : IntVect) : Decidable (crossIn c p) := by
  unfold crossIn
  infer_instance

/-- C3: for a reached window cache and any n with 0 < |n| < numSlab, the
composed shift(n, cursor) translates the window by n along the normal
direction and refills from the source exactly the |n| newly exposed normal
coordinates — for n > 0 the |n| highest coordinates of the updated region,
for n < 0 the |n| lowest: afterwards every point of those slabs reads back
the source value for the full component range, while every other slab of the
updated window reads back exactly its pre-shift cached value. -/
theorem c3_shift_cursor_loads_exposed (c : SlabCfg) (sel n : ℤ) (st : SlabState)
    (hwf : c.wf)
    (hsel : (sel = -3 ∧ c.blockDim = c.numPntSlab) ∨ (sel = -2 ∧ c.numPntSlab ≤ c.blockDim))
    (hre : reached c st) (hn : n ≠ 0) (habs : |n| < c.numSlab) :
    (shiftLoad c sel n st).box = st.box.shift n 2 ∧
    (∀ p : IntVect, crossIn c p →
      ((0 < n ∧ (shiftLoad c sel n st).box.hi.z - |n| + 1 ≤ p.z ∧
          p.z ≤ (shiftLoad c sel n st).box.hi.z) ∨
       (n < 0 ∧ (shiftLoad c sel n st).box.lo.z ≤ p.z ∧
          p.z ≤ (shiftLoad c sel n st).box.lo.z + |n| - 1)) →
      ∀ j : ℤ, 0 ≤ j → j < c.ncomp →
        readCache c (shiftLoad c sel n st) p (c.compBegSrc + j) =
          c.src p (c.compBegSrc + j)) ∧
    (∀ p : IntVect, crossIn c p →
      (shiftLoad c sel n st).box.lo.z ≤ p.z → p.z ≤ (shiftLoad c sel n st).box.hi.z →
      ¬ ((0 < n ∧ (shiftLoad c sel n st).box.hi.z - |n| + 1 ≤ p.z) ∨
         (n < 0 ∧ p.z ≤ (shiftLoad c sel n st).box.lo.z + |n| - 1)) →
      ∀ j : ℤ, 0 ≤ j → j < c.ncomp →
        readCache c (shiftLoad c sel n st) p (c.compBegSrc + j) =
          readCache c st p (c.compBegSrc + j)) := by
  obtain ⟨hbox, htab, hre2, hload, hframe⟩ :=
    shiftLoad_effect c sel n st hwf hsel hre hn habs.le
  have hbz1 : (shiftLoad c sel n st).box.lo.z = st.box.lo.z + n := by
    rw [hbox, Box.shift_axis2]
  have hbz2 : (shiftLoad c sel n st).box.hi.z = st.box.hi.z + n := by
    rw [hbox, Box.shift_axis2]
  refine ⟨hbox, ?_, ?_⟩
  · intro p hcr hrange j hj0 hj1
    apply hload p hcr ?_ j hj0 hj1
    rcases hrange with ⟨hpos, h1, h2⟩ | ⟨hneg, h1, h2⟩
    · rw [abs_of_pos hpos] at h1
      rw [hbz2] at h1 h2
      exact Or.inl ⟨hpos, by omega, by omega⟩
    · rw [abs_of_neg hneg] at h2
      rw [hbz1] at h1 h2
      exact Or.inr ⟨hneg, by omega, by omega⟩
  · intro p hcr h1 h2 hnot j hj0 hj1
    apply hframe p hcr ?_ j hj0 hj1
    push_neg at hnot
    obtain ⟨hnot1, hnot2⟩ := hnot
    rw [hbz1] at h1
    rw [hbz2] at h2
    rcases lt_trichotomy n 0 with hneg | h0 | hpos
    · have := hnot2 hneg
      rw [hbz1, abs_of_neg hneg] at this
      exact Or.inr ⟨hneg, by omega, by omega⟩
    · exact absurd h0 hn
    · have := hnot1 hpos
      rw [hbz2, abs_of_pos hpos] at this
      exact Or.inl ⟨hpos, by omega, by omega⟩

/-- Concrete cache configuration for the SlabFab witnesses: a 2x2x4 window
with one component, a constant source, and a lane group of width 4 (the
slab point count). -/
def wCfg : SlabCfg :=
  ⟨Box.mk ⟨0, 0, 0⟩ ⟨1, 1, 3⟩, 1, 0, fun _ _ => 7, 4⟩

/-- Concrete post-define state for the SlabFab witnesses: identity table and
a payload that agrees with the constant source everywhere. -/
def wSt : SlabState :=
  ⟨Box.mk ⟨0, 0, 0⟩ ⟨1, 1, 3⟩, defineTable, fun _ => 7⟩

/-- The concrete witness state is a reached state. -/
theorem wSt_reached : reached wCfg wSt :=
  ⟨rfl, rfl, rfl, rfl, rfl, 0, le_rfl, cyclic_defineTable wCfg.numSlab⟩

/-- Witness for C3: shifting the concrete cache by 1 with reload moves the
window to [(0,0,1),(1,1,4)]. -/
theorem c3_witness :
    wCfg.wf ∧ (1 : ℤ) ≠ 0 ∧ |(1 : ℤ)| < wCfg.numSlab ∧
    (shiftLoad wCfg (-3) 1 wSt).box = wSt.box.shift 1 2 :=
  ⟨by decide, by decide, by decide,
    (c3_shift_cursor_loads_exposed wCfg (-3) 1 wSt (by decide)
      (Or.inl ⟨rfl, by decide⟩) wSt_reached (by decide) (by decide)).1⟩

/-- C2: for a reached window cache whose payload agrees with the source on
the whole window, shift(k) followed by shift(-k), each with its reload step,
restores the pre-shift state exactly: the window bounds, the live entries of
the permutation table, and every value visible through index() equal their
pre-shift values (the source content being unchanged throughout). -/
theorem c2_shift_roundtrip (c : SlabCfg) (sel k : ℤ) (st : SlabState)
    (hwf : c.wf)
    (hsel : (sel = -3 ∧ c.blockDim = c.numPntSlab) ∨ (sel = -2 ∧ c.numPntSlab ≤ c.blockDim))
    (hre : reached c st) (habs : |k| ≤ c.numSlab)
    (hcoh : ∀ p : IntVect, crossIn c p → st.box.lo.z ≤ p.z → p.z ≤ st.box.hi.z →
      ∀ j : ℤ, 0 ≤ j → j < c.ncomp →
        readCache c st p (c.compBegSrc + j) = c.src p (c.compBegSrc + j)) :
    (shiftLoad c sel (-k) (shiftLoad c sel k st)).box = st.box ∧
    (∀ i : ℤ, 0 ≤ i → i < c.numSlab →
      (shiftLoad c sel (-k) (shiftLoad c sel k st)).pTable i = st.pTable i) ∧
    (∀ p : IntVect, crossIn c p → st.box.lo.z ≤ p.z → p.z ≤ st.box.hi.z →
      ∀ j : ℤ, 0 ≤ j → j < c.ncomp →
        readCache c (shiftLoad c sel (-k) (shiftLoad c sel k st)) p (c.compBegSrc + j) =
          readCache c st p (c.compBegSrc + j)) := by
  have hm : 0 < c.numSlab := by
    obtain ⟨_, hns, _⟩ := hwf
    omega
  by_cases hk : k = 0
  · subst hk
    have h1 : shiftLoad c sel 0 st = st := by
      unfold shiftLoad
      rw [if_pos rfl]
    rw [show (-(0 : ℤ)) = 0 by ring, h1, h1]
    exact ⟨rfl, fun i _ _ => rfl, fun p _ _ _ j _ _ => rfl⟩
  · have hkn : (-k) ≠ 0 := by omega
    have habsn : |(-k)| ≤ c.numSlab := by
      rw [abs_neg]
      exact habs
    obtain ⟨hbox1, htab1, hre1, hload1, hframe1⟩ :=
      shiftLoad_effect c sel k st hwf hsel hre hk habs
    obtain ⟨hbox2, htab2, hre2, hload2, hframe2⟩ :=
      shiftLoad_effect c sel (-k) (shiftLoad c sel k st) hwf hsel hre1 hkn habsn
    have hz1 : (shiftLoad c sel k st).box.lo.z = st.box.lo.z + k := by
      rw [hbox1, Box.shift_axis2]
    have hz2 : (shiftLoad c sel k st).box.hi.z = st.box.hi.z + k := by
      rw [hbox1, Box.shift_axis2]
    have hdepth : st.box.hi.z - st.box.lo.z + 1 = c.numSlab := hre.2.2.2.2.1
    obtain ⟨habs1, habs2⟩ := abs_le.mp habs
    refine ⟨?_, ?_, ?_⟩
    · rw [hbox2, hbox1, Box.shift_cancel_axis2]
    · intro i h0 h1
      obtain ⟨cc, hcc, hcyc⟩ := hre.2.2.2.2.2
      obtain ⟨hcyc1, hcc1⟩ := cyclic_shiftTable c.numSlab k cc hm hcc st.pTable hcyc
      obtain ⟨hcyc2, _⟩ := cyclic_shiftTable c.numSlab (-k) (cc + normShift k c.numSlab)
        hm hcc1 _ hcyc1
      rw [htab2, htab1]
      rw [hcyc2 i h0 h1, hcyc i h0 h1]
      rw [Int.emod_eq_emod_iff_emod_sub_eq_zero]
      rw [show i + (cc + normShift k c.numSlab + normShift (-k) c.numSlab) - (i + cc) =
        normShift k c.numSlab + normShift (-k) c.numSlab by ring]
      rw [Int.add_emod, normShift_emod, normShift_emod, ← Int.add_emod]
      rw [show k + -k = 0 by ring, Int.zero_emod]
    · intro p hcr hp0 hp1 j hj0 hj1
      rcases lt_trichotomy k 0 with hkneg | h0 | hkpos
      · by_cases hcase : st.box.hi.z + k + 1 ≤ p.z
        · rw [hload2 p hcr (Or.inl ⟨by omega, by rw [hz2]; omega, by rw [hz2]; omega⟩)
            j hj0 hj1]
          rw [hcoh p hcr hp0 hp1 j hj0 hj1]
        · rw [hframe2 p hcr (Or.inl ⟨by omega, by rw [hz1]; omega, by rw [hz2]; omega⟩)
            j hj0 hj1]
          exact hframe1 p hcr (Or.inr ⟨hkneg, by omega, by omega⟩) j hj0 hj1
      · exact absurd h0 hk
      · by_cases hcase : p.z ≤ st.box.lo.z + k - 1
        · rw [hload2 p hcr (Or.inr ⟨by omega, by rw [hz1]; omega, by rw [hz1]; omega⟩)
            j hj0 hj1]
          rw [hcoh p hcr hp0 hp1 j hj0 hj1]
        · rw [hframe2 p hcr (Or.inr ⟨by omega, by rw [hz1]; omega, by rw [hz2]; omega⟩)
            j hj0 hj1]
          exact hframe1 p hcr (Or.inl ⟨hkpos, by omega, by omega⟩) j hj0 hj1

/-- Witness for C2: round trip by k = 2 on the concrete coherent cache. -/
theorem c2_witness :
    wCfg.wf ∧ |(2 : ℤ)| ≤ wCfg.numSlab ∧
    (shiftLoad wCfg (-3) (-2) (shiftLoad wCfg (-3) 2 wSt)).box = wSt.box :=
  ⟨by decide, by decide,
    (c2_shift_roundtrip wCfg (-3) 2 wSt (by decide) (Or.inl ⟨rfl, by decide⟩)
      wSt_reached (by decide) (fun p _ _ _ j _ _ => rfl)).1⟩

/-- C7: under the precondition that the slab point count is at most the
requested lane count and the lane count at most the block width,
selectLoadMethod picks the exact-fit selector -3 exactly when the block
width equals both the lane count and the slab point count, and the
over-provisioned selector -2 otherwise; the CH_assert(false) branch is
unreachable and no positive (power-of-two-subdivided) selector is ever
produced.  Consequently loadSlab executes one of the two supported copy
paths, in which every destination point of the slab is written by exactly
one participating lane, for the full component range. -/
theorem c7_selectLoadMethod_supported (c : SlabCfg) (numThr : ℤ) (st : SlabState)
    (locND : ℤ) (hwf : c.wf) (hre : reached c st)
    (hlo : st.box.lo.z ≤ locND) (hhi : locND ≤ st.box.hi.z)
    (hpre1 : c.numPntSlab ≤ numThr) (hpre2 : numThr ≤ c.blockDim) :
    (selectLoadMethod c.blockDim numThr c.numPntSlab = some (-3) ↔
      c.blockDim = numThr ∧ c.blockDim = c.numPntSlab) ∧
    (selectLoadMethod c.blockDim numThr c.numPntSlab = some (-3) ∨
      selectLoadMethod c.blockDim numThr c.numPntSlab = some (-2)) ∧
    (∀ v : ℤ, selectLoadMethod c.blockDim numThr c.numPntSlab = some v → v < 0) ∧
    (∀ sel : ℤ, selectLoadMethod c.blockDim numThr c.numPntSlab = some sel →
      (∀ p : IntVect, crossIn c p → p.z = locND →
        (∃! t : ℤ, (0 ≤ t ∧ t < c.blockDim ∧ participates sel 0 c.numPntSlab t = true) ∧
          c.cursor t locND = p) ∧
        (∀ j : ℤ, 0 ≤ j → j < c.ncomp →
          readCache c (loadSlab c sel 0 locND st) p (c.compBegSrc + j) =
            c.src p (c.compBegSrc + j)))) := by
  have hnps : 0 < c.numPntSlab := by
    obtain ⟨⟨hx, hy, hz⟩, _, _⟩ := hwf
    have : c.numPntSlab =
        (c.box0.hi.x - c.box0.lo.x + 1) * (c.box0.hi.y - c.box0.lo.y + 1) := rfl
    rw [this]
    have h1 : (0 : ℤ) < c.box0.hi.x - c.box0.lo.x + 1 := by omega
    have h2 : (0 : ℤ) < c.box0.hi.y - c.box0.lo.y + 1 := by omega
    positivity
  have hsome : ∀ sel : ℤ, selectLoadMethod c.blockDim numThr c.numPntSlab = some sel →
      (sel = -3 ∧ c.blockDim = c.numPntSlab) ∨ (sel = -2 ∧ c.numPntSlab ≤ c.blockDim) := by
    intro sel hs
    unfold selectLoadMethod at hs
    by_cases h1 : c.blockDim = numThr ∧ c.blockDim = c.numPntSlab
    · rw [if_pos h1] at hs
      exact Or.inl ⟨(Option.some.inj hs).symm, h1.2⟩
    · rw [if_neg h1, if_pos hpre1] at hs
      exact Or.inr ⟨(Option.some.inj hs).symm, by omega⟩
  refine ⟨?_, ?_, ?_, ?_⟩
  · constructor
    · intro hs
      rcases hsome _ hs with ⟨_, hb⟩ | ⟨hc, _⟩
      · unfold selectLoadMethod at hs
        by_cases h1 : c.blockDim = numThr ∧ c.blockDim = c.numPntSlab
        · exact h1
        · rw [if_neg h1, if_pos hpre1] at hs
          exact absurd (by omega : (-2 : ℤ) = -3) (by decide)
      · exact absurd (by omega : (-2 : ℤ) = -3) (by decide)
    · intro h1
      unfold selectLoadMethod
      rw [if_pos h1]
  · unfold selectLoadMethod
    by_cases h1 : c.blockDim = numThr ∧ c.blockDim = c.numPntSlab
    · rw [if_pos h1]
      exact Or.inl rfl
    · rw [if_neg h1, if_pos hpre1]
      exact Or.inr rfl
  · intro v hv
    rcases hsome _ hv with ⟨h, _⟩ | ⟨h, _⟩ <;> omega
  · intro sel hs p hcr hpz
    have hsel := hsome _ hs
    constructor
    · obtain ⟨t0, ht00, ht01, ht0c, ht0u⟩ := cursor_of_cross c hwf p hcr
      rw [hpz] at ht0c ht0u
      have hbd : c.numPntSlab ≤ c.blockDim := by
        rcases hsel with ⟨_, hb⟩ | ⟨_, hb⟩
        · omega
        · exact hb
      refine ⟨t0, ⟨⟨ht00, by omega, ?_⟩, ht0c⟩, ?_⟩
      · rcases hsel with ⟨hs3, _⟩ | ⟨hs2, _⟩
        · subst hs3
          unfold participates
          rw [if_pos rfl]
        · subst hs2
          unfold participates
          rw [if_neg (by decide), if_pos rfl]
          simp only [decide_eq_true_eq]
          omega
      · rintro t ⟨⟨ht0, ht1, htp⟩, htc⟩
        apply ht0u t ht0 ?_ htc
        rcases hsel with ⟨hs3, hb⟩ | ⟨hs2, _⟩
        · omega
        · subst hs2
          unfold participates at htp
          rw [if_neg (by decide), if_pos rfl] at htp
          simp only [decide_eq_true_eq] at htp
          omega
    · intro j hj0 hj1
      exact (loadSlab_effect c sel st locND hwf hre hsel hlo hhi).2.2.1 p hcr hpz j hj0 hj1

/-- Witness for C7: the concrete cache selects the exact-fit strategy. -/
theorem c7_witness :
    wCfg.wf ∧ wCfg.numPntSlab ≤ 4 ∧ (4 : ℤ) ≤ wCfg.blockDim ∧
    (selectLoadMethod wCfg.blockDim 4 wCfg.numPntSlab = some (-3) ∨
      selectLoadMethod wCfg.blockDim 4 wCfg.numPntSlab = some (-2)) :=
  ⟨by decide, by decide, by decide,
    (c7_selectLoadMethod_supported wCfg 4 wSt 0 (by decide) wSt_reached (by decide)
      (by decide) (by decide) (by decide)).2.1⟩

/-- C10: the debug assertion of Box::grow(int, int) is off by one: it checks
a_dir >= 0 && a_dir <= g_SpaceDim, so it admits dir = g_SpaceDim = 3, which
is not a valid component index of the 3-entry coordinate (IntVect::operator[]
has no element there), contradicting the claim that only 0 <= dir <
g_SpaceDim is admitted. -/
theorem c10_grow_assert_admits_out_of_bounds :
    Box.growDirAssert 3 ∧ ¬ ((3 : ℤ) < g_SpaceDim) ∧
    ∀ v : IntVect, v.get? 3 = none := by
  refine ⟨by decide, by decide, ?_⟩
  intro v
  rfl

end BoxFramework
